import Mathlib

/-!
# SimClientComponent: a shallow embedding

The component of `SimClientComponent.cpp` / `SimClientComponent.h` is a thin HTTP
client: `CallLoad`, `CallSave` and `CallTick` hand one POST request each to the
engine's HTTP module, and `HandleResp` forwards the reply's text to the
subscribers of `OnSimStateUpdated` and keeps a parsed copy in `SimState`.

Text (`FString`) is a list of characters; `Printf` reads each `%s` argument, a
`const TCHAR*`, up to its first U+0000.  Every member function is a function
from the component to the component after the call, paired with the effects the
call has on the outside, in program order.

The engine functions the component calls are not part of the repository: the
HTTP module and the delegate are effects, `FString::ReplaceCharWithEscapedChar`
follows the engine's escape table, and `FJsonSerializer::Deserialize` is a
reader of the JSON grammar whose root must be an object.
-/

namespace SimClient

/-- Text as an `FString` holds it. -/
abbrev FString := List Char

/-- The member function a request's completion delegate is bound to. -/
inductive Completion where
  | HandleResp
  deriving DecidableEq, Repr

/-- What the component sets on an `IHttpRequest` before `ProcessRequest`. -/
structure HttpRequest where
  URL : FString
  Verb : FString
  Headers : List (FString × FString)
  Content : FString
  OnProcessRequestComplete : Option Completion
  deriving DecidableEq, Repr

/-- The request `FHttpModule::Get().CreateRequest()` returns: nothing set yet. -/
def CreateRequest : HttpRequest :=
  { URL := [], Verb := [], Headers := [], Content := [], OnProcessRequestComplete := none }

/-- The part of an `IHttpResponse` the component reads. -/
structure HttpResponse where
  ContentAsString : FString
  deriving DecidableEq, Repr

/-- A JSON value; a number `number m e` stands for `m * 10 ^ e`. -/
inductive FJsonValue where
  | null
  | boolean (b : Bool)
  | number (m : Int) (e : Int)
  | string (s : FString)
  | array (items : List FJsonValue)
  | object (fields : List (FString × FJsonValue))
  deriving Repr

/-- The fields of a JSON object, in the order they were read. -/
abbrev FJsonObject := List (FString × FJsonValue)

/-- A receiver bound to the `OnSimStateUpdated` delegate. -/
abbrev Subscriber := Nat

/-- What a call does to the outside of the component, one entry per effect. -/
inductive Effect where
  | SuperBeginPlay
  | SuperEndPlay
  | ProcessRequest (r : HttpRequest)
  | Notify (s : Subscriber) (JsonText : FString)
  | Deserialize (JsonText : FString)
  | LogWarning (line : FString)
  deriving DecidableEq, Repr

/-- The data members of `USimClientComponent`. -/
structure USimClientComponent where
  BaseURL : FString
  OnSimStateUpdated : List Subscriber
  SimState : Option FJsonObject

/-- The default member initialiser of `BaseURL`. -/
def defaultBaseURL : FString := "http://127.0.0.1:8000".toList

/-- A freshly constructed component: default URL, nobody bound, null `SimState`. -/
def USimClientComponent.init : USimClientComponent :=
  { BaseURL := defaultBaseURL, OnSimStateUpdated := [], SimState := none }


/-! ## Engine text helpers

`FString::operator+`, `FString::Printf` with `%s` and
`FString::ReplaceCharWithEscapedChar` are engine functions the component calls.
-/

/-- `FString::ReplaceInline` for a one-character search text: every occurrence
of `From` is replaced by `To`. -/
def ReplaceInline (From : Char) (To : FString) (s : FString) : FString :=
  s.flatMap (fun c => if c = From then To else [c])

/-- The engine's table of characters and their escape sequences, in the order
the engine applies them: backslash first, then line feed, carriage return, tab,
single quote, double quote. -/
def CharToEscapeSeqMap : List (Char × FString) :=
  [ ('\\', ['\\', '\\']),
    ('\n', ['\\', 'n']),
    ('\r', ['\\', 'r']),
    ('\t', ['\\', 't']),
    (Char.ofNat 39, ['\\', Char.ofNat 39]),
    ('"', ['\\', '"']) ]

/-- Modelled from the spec: `FString::ReplaceCharWithEscapedChar` is an engine
function, not part of the repository's sources.  The spec says the event has its
embedded quotes escaped; the engine function, called without a character list as
`CallTick` calls it, runs `ReplaceInline` over the text once per row of
`CharToEscapeSeqMap`, in table order, and returns an empty text unchanged. -/
def ReplaceCharWithEscapedChar (s : FString) : FString :=
  if s.length > 0 then
    CharToEscapeSeqMap.foldl (fun Result row => ReplaceInline row.1 row.2 Result) s
  else s

/-- The text a `%s` of `Printf` reads from the `const TCHAR*` it is handed: the
characters before the first U+0000. -/
def cString (s : FString) : FString :=
  s.takeWhile (fun c => c ≠ Char.ofNat 0)

/-- The text `FString::Printf` builds from the format of `CallTick`,
`{"event":"%s","params":%s}`, and its two arguments, each handed over by `*` as
a `const TCHAR*` and so read up to its first U+0000. -/
def PrintfTickBody (a b : FString) : FString :=
  "\x7b\"event\":\"".toList ++ cString a ++ "\",\"params\":".toList ++ cString b
    ++ "\x7d".toList

/-- `IHttpRequest::SetHeader`: the header's value is set, replacing an earlier
value of the same header. -/
def SetHeader (name value : FString) (hs : List (FString × FString)) :
    List (FString × FString) :=
  (name, value) :: hs.filter (fun h => h.1 ≠ name)


/-! ## Reading JSON

`FJsonSerializer::Deserialize` is the engine's JSON reader, and the server that
receives a tick body reads it as JSON too.  The reader below follows the JSON
grammar (RFC 8259): whitespace, the literals `null`, `true`, `false`, numbers,
string literals with their escapes, arrays and objects.  The readers that nest
take fuel; `parseJson_of_readValue` and `decodeRaw_of_decodeRawAux` show that the
fuel `parseJson` and `decodeRaw` give is always enough.
-/

/-- JSON whitespace: space, tab, line feed, carriage return. -/
def isWhitespace (c : Char) : Bool :=
  c = ' ' || c = '\t' || c = '\n' || c = '\r'

/-- Drop leading whitespace. -/
def skipWhitespace : FString → FString
  | [] => []
  | c :: cs => if isWhitespace c then skipWhitespace cs else c :: cs

/-- The value of a hexadecimal digit. -/
def hexDigit (c : Char) : Option Nat :=
  if '0' ≤ c ∧ c ≤ '9' then some (c.toNat - 48)
  else if 'a' ≤ c ∧ c ≤ 'f' then some (c.toNat - 87)
  else if 'A' ≤ c ∧ c ≤ 'F' then some (c.toNat - 55)
  else none

/-- The code unit four hexadecimal digits name. -/
def hex4 (a b c d : Char) : Option Nat :=
  match hexDigit a, hexDigit b, hexDigit c, hexDigit d with
  | some x, some y, some z, some w => some (((x * 16 + y) * 16 + z) * 16 + w)
  | _, _, _, _ => none

/-- The character a one-letter escape stands for: what may follow a backslash
in a JSON string literal, `u` apart. -/
def unescape (c : Char) : Option Char :=
  if c = '"' then some '"'
  else if c = '\\' then some '\\'
  else if c = '/' then some '/'
  else if c = 'b' then some (Char.ofNat 8)
  else if c = 'f' then some (Char.ofNat 12)
  else if c = 'n' then some '\n'
  else if c = 'r' then some '\r'
  else if c = 't' then some '\t'
  else none

/-- Put a character in front of the text a reader returned. -/
def consChar (c : Char) (r : Option (FString × FString)) : Option (FString × FString) :=
  r.map (fun x => (c :: x.1, x.2))

/-- Find the end of a string literal whose opening quote has been consumed: a
backslash takes the next character with it, and the first quote not so taken
closes the literal.  The result is the raw content and what follows the
closing quote. -/
def scanLiteral : FString → Option (FString × FString)
  | [] => none
  | c :: cs =>
    if c = '"' then some ([], cs)
    else if c = '\\' then
      match cs with
      | [] => none
      | d :: ds => consChar c (consChar d (scanLiteral ds))
    else consChar c (scanLiteral cs)

/-- Read what follows the `u` of a `\u` escape: four hexadecimal digits, and
for a high surrogate the `\u` escape of a low surrogate after them.  A lone
surrogate is an error. -/
def readUnicode (s : FString) : Option (Char × FString) :=
  match s with
  | h1 :: h2 :: h3 :: h4 :: rest =>
    match hex4 h1 h2 h3 h4 with
    | none => none
    | some hi =>
      if hi < 0xD800 ∨ 0xDFFF < hi then some (Char.ofNat hi, rest)
      else if 0xDC00 ≤ hi then none
      else
        match rest with
        | b :: u :: l1 :: l2 :: l3 :: l4 :: rest2 =>
          if b = '\\' ∧ u = 'u' then
            match hex4 l1 l2 l3 l4 with
            | none => none
            | some lo =>
              if 0xDC00 ≤ lo ∧ lo ≤ 0xDFFF then
                some (Char.ofNat (0x10000 + (hi - 0xD800) * 0x400 + (lo - 0xDC00)), rest2)
              else none
          else none
        | _ => none
  | _ => none

/-- Read what follows the backslash of an escape: the character it stands for
and the text after the escape. -/
def readEscape (s : FString) : Option (Char × FString) :=
  match s with
  | [] => none
  | d :: ds => if d = 'u' then readUnicode ds else (unescape d).map (fun x => (x, ds))

/-- Decode the raw content of a string literal, one character or escape per
unit of fuel.  A raw control character, a bare quote and an unknown escape are
errors. -/
def decodeRawAux : Nat → FString → Option FString
  | 0, s => if s = [] then some [] else none
  | fuel + 1, s =>
    match s with
    | [] => some []
    | c :: cs =>
      if c = '\\' then
        match readEscape cs with
        | none => none
        | some (x, rest) => (decodeRawAux fuel rest).map (fun r => x :: r)
      else if c = '"' then none
      else if c.toNat < 32 then none
      else (decodeRawAux fuel cs).map (fun r => c :: r)

/-- Decode the raw content of a string literal; its length is fuel enough. -/
def decodeRaw (s : FString) : Option FString :=
  decodeRawAux s.length s

/-- Read a string literal whose opening quote has been consumed: the decoded
text and what follows the closing quote. -/
def readString (s : FString) : Option (FString × FString) :=
  match scanLiteral s with
  | none => none
  | some (raw, rest) => (decodeRaw raw).map (fun x => (x, rest))

/-- Split off the leading decimal digits. -/
def readDigits : FString → List Nat × FString
  | [] => ([], [])
  | c :: cs =>
    if '0' ≤ c ∧ c ≤ '9' then
      let r := readDigits cs
      ((c.toNat - 48) :: r.1, r.2)
    else ([], c :: cs)

/-- The number a list of decimal digits writes. -/
def digitsToNat (ds : List Nat) : Nat :=
  ds.foldl (fun a d => 10 * a + d) 0

/-- The integer part of a number: `0`, or digits that do not start with `0`. -/
def readInt (s : FString) : Option (List Nat × FString) :=
  match readDigits s with
  | ([], _) => none
  | ([d], rest) => some ([d], rest)
  | (d :: ds, rest) => if d = 0 then none else some (d :: ds, rest)

/-- The optional fraction: a dot and at least one digit. -/
def readFrac (s : FString) : Option (List Nat × FString) :=
  match s with
  | [] => some ([], [])
  | c :: cs =>
    if c = '.' then
      match readDigits cs with
      | ([], _) => none
      | (ds, rest) => some (ds, rest)
    else some ([], c :: cs)

/-- The optional exponent: `e` or `E`, an optional sign, at least one digit. -/
def readExp (s : FString) : Option (Int × FString) :=
  match s with
  | [] => some (0, [])
  | c :: cs =>
    if c = 'e' ∨ c = 'E' then
      match cs with
      | [] => none
      | g :: gs =>
        if g = '-' then
          match readDigits gs with
          | ([], _) => none
          | (ds, rest) => some (- (digitsToNat ds : Int), rest)
        else
          match readDigits (if g = '+' then gs else g :: gs) with
          | ([], _) => none
          | (ds, rest) => some ((digitsToNat ds : Int), rest)
    else some (0, c :: cs)

/-- Read a number that carries no sign: mantissa and decimal exponent. -/
def readUnsigned (s : FString) : Option ((Nat × Int) × FString) :=
  match readInt s with
  | none => none
  | some (ip, r1) =>
    match readFrac r1 with
    | none => none
    | some (fp, r2) =>
      match readExp r2 with
      | none => none
      | some (e, r3) => some ((digitsToNat (ip ++ fp), e - (fp.length : Int)), r3)

/-- Read a JSON number. -/
def readNumber (s : FString) : Option (FJsonValue × FString) :=
  match s with
  | [] => none
  | c :: cs =>
    if c = '-' then
      (readUnsigned cs).map (fun r => (FJsonValue.number (- (r.1.1 : Int)) r.1.2, r.2))
    else
      (readUnsigned (c :: cs)).map (fun r => (FJsonValue.number (r.1.1 : Int) r.1.2, r.2))

/-- Consume the given word. -/
def expectWord (w s : FString) : Option FString :=
  if w.isPrefixOf s then some (s.drop w.length) else none

mutual
/-- Read one JSON value, leading whitespace allowed; `fuel` bounds the nesting
and the number of members read. -/
def readValue : Nat → FString → Option (FJsonValue × FString)
  | 0, _ => none
  | fuel + 1, s =>
    match skipWhitespace s with
    | [] => none
    | c :: cs =>
      if c = '\x7b' then
        match skipWhitespace cs with
        | [] => none
        | d :: ds =>
          if d = '\x7d' then some (FJsonValue.object [], ds)
          else (readMembers fuel (d :: ds)).map (fun r => (FJsonValue.object r.1, r.2))
      else if c = '[' then
        match skipWhitespace cs with
        | [] => none
        | d :: ds =>
          if d = ']' then some (FJsonValue.array [], ds)
          else (readElements fuel (d :: ds)).map (fun r => (FJsonValue.array r.1, r.2))
      else if c = '"' then
        (readString cs).map (fun r => (FJsonValue.string r.1, r.2))
      else if c = 't' then
        (expectWord ['r', 'u', 'e'] cs).map (fun r => (FJsonValue.boolean true, r))
      else if c = 'f' then
        (expectWord ['a', 'l', 's', 'e'] cs).map (fun r => (FJsonValue.boolean false, r))
      else if c = 'n' then
        (expectWord ['u', 'l', 'l'] cs).map (fun r => (FJsonValue.null, r))
      else readNumber (c :: cs)
/-- Read the members of an object up to and including its closing brace. -/
def readMembers : Nat → FString → Option (List (FString × FJsonValue) × FString)
  | 0, _ => none
  | fuel + 1, s =>
    match skipWhitespace s with
    | [] => none
    | q :: s1 =>
      if q = '"' then
        match readString s1 with
        | none => none
        | some (key, s2) =>
          match skipWhitespace s2 with
          | [] => none
          | colon :: s3 =>
            if colon = ':' then
              match readValue fuel s3 with
              | none => none
              | some (v, s4) =>
                match skipWhitespace s4 with
                | [] => none
                | sep :: s5 =>
                  if sep = ',' then
                    (readMembers fuel s5).map (fun r => ((key, v) :: r.1, r.2))
                  else if sep = '\x7d' then some ([(key, v)], s5)
                  else none
            else none
      else none
/-- Read the elements of an array up to and including its closing bracket. -/
def readElements : Nat → FString → Option (List FJsonValue × FString)
  | 0, _ => none
  | fuel + 1, s =>
    match readValue fuel s with
    | none => none
    | some (v, s1) =>
      match skipWhitespace s1 with
      | [] => none
      | sep :: s2 =>
        if sep = ',' then (readElements fuel s2).map (fun r => (v :: r.1, r.2))
        else if sep = ']' then some ([v], s2)
        else none
end

/-- Read a whole JSON text: one value, whitespace around it, nothing else.
Every nested value and every further member or element costs one unit of fuel
and at least one character, so the length of the text is fuel enough. -/
def parseJson (s : FString) : Option FJsonValue :=
  match readValue (s.length + 1) s with
  | none => none
  | some (v, rest) => if skipWhitespace rest = [] then some v else none

/-- Modelled from the spec: `FJsonSerializer::Deserialize` into a
`TSharedPtr<FJsonObject>` is an engine function, not part of the repository's
sources.  The spec says a body "parseable as a JSON object" is the one that is
kept and that a body "parseable only as a non-object JSON value, or not at all"
is not: the call returns `true` and sets the out-parameter exactly when the text
is a JSON text whose root is an object, and else returns `false` and leaves the
out-parameter null. -/
def Deserialize (JsonText : FString) : Bool × Option FJsonObject :=
  match parseJson JsonText with
  | some (FJsonValue.object fields) => (true, some fields)
  | _ => (false, none)

/-- The value of a key in an object: `FJsonObject::TryGetField`; the last of
several members of one name is the one that stays in the engine's map. -/
def TryGetField (o : FJsonObject) (key : FString) : Option FJsonValue :=
  (o.reverse.find? (fun f => f.1 = key)).map (fun f => f.2)

/-! ## The component's member functions -/

/-- `SendPOST`: build the URL, fill a new request, bind the completion to
`HandleResp` and hand the request to the HTTP module. -/
def SendPOST (self : USimClientComponent) (Ep Body : FString) :
    USimClientComponent × List Effect :=
  let URL := self.BaseURL ++ Ep
  let Req := CreateRequest
  let Req := { Req with URL := URL }
  let Req := { Req with Verb := "POST".toList }
  let Req := { Req with
    Headers := SetHeader "Content-Type".toList "application/json".toList Req.Headers }
  let Req := { Req with Content := Body }
  let Req := { Req with OnProcessRequestComplete := some Completion.HandleResp }
  (self, [Effect.ProcessRequest Req])

/-- `CallLoad`. -/
def CallLoad (self : USimClientComponent) : USimClientComponent × List Effect :=
  SendPOST self "/load".toList "\x7b\x7d".toList

/-- `CallSave`. -/
def CallSave (self : USimClientComponent) : USimClientComponent × List Effect :=
  SendPOST self "/save".toList "\x7b\x7d".toList

/-- `CallTick`: the body is built by `Printf` from the escaped event and the
caller's `ParamsJson`. -/
def CallTick (self : USimClientComponent) (Event ParamsJson : FString) :
    USimClientComponent × List Effect :=
  let Body := PrintfTickBody (ReplaceCharWithEscapedChar Event) ParamsJson
  SendPOST self "/tick".toList Body

/-- `BeginPlay`: the host's `Super::BeginPlay`, then `CallLoad`. -/
def BeginPlay (self : USimClientComponent) : USimClientComponent × List Effect :=
  let r := CallLoad self
  (r.1, Effect.SuperBeginPlay :: r.2)

/-- `EndPlay`: `CallSave`, then the host's `Super::EndPlay`. -/
def EndPlay (self : USimClientComponent) : USimClientComponent × List Effect :=
  let r := CallSave self
  (r.1, r.2 ++ [Effect.SuperEndPlay])

/-- `HandleResp`: on failure one warning and nothing else; on success the
broadcast to every bound subscriber, then the parse, then the assignment of
`SimState` when the parse gave an object. -/
def HandleResp (self : USimClientComponent) (Req : HttpRequest)
    (Resp : Option HttpResponse) (bOK : Bool) : USimClientComponent × List Effect :=
  match bOK, Resp with
  | true, some resp =>
    let JsonText := resp.ContentAsString
    let broadcast := self.OnSimStateUpdated.map (fun s => Effect.Notify s JsonText)
    let parsed := Deserialize JsonText
    let J := parsed.2
    let self2 := if parsed.1 && J.isSome then { self with SimState := J } else self
    (self2, broadcast ++ [Effect.Deserialize JsonText])
  | _, _ => (self, [Effect.LogWarning ("HTTP fail: ".toList ++ Req.URL)])


/-! ## Sequences of calls -/

/-- What the scripting layer can do to a component: write `BaseURL`, or call
one of the three dispatch operations. -/
inductive Op where
  | SetBaseURL (url : FString)
  | CallLoad
  | CallSave
  | CallTick (Event ParamsJson : FString)
  deriving DecidableEq, Repr

/-- One operation of the scripting layer. -/
def Op.step (self : USimClientComponent) : Op → USimClientComponent × List Effect
  | Op.SetBaseURL url => ({ self with BaseURL := url }, [])
  | Op.CallLoad => SimClient.CallLoad self
  | Op.CallSave => SimClient.CallSave self
  | Op.CallTick Event ParamsJson => SimClient.CallTick self Event ParamsJson

/-- The requests among some effects. -/
def requestsOf (es : List Effect) : List HttpRequest :=
  es.filterMap (fun e => match e with
    | Effect.ProcessRequest r => some r
    | _ => none)

/-- The value `BaseURL` has at each dispatch of a request while the operations
run in order from the given component, one entry per request. -/
def baseURLsAtDispatch (self : USimClientComponent) : List Op → List FString
  | [] => []
  | op :: ops =>
    (requestsOf (Op.step self op).2).map (fun _ => self.BaseURL)
      ++ baseURLsAtDispatch (Op.step self op).1 ops

/-- The component after the operations have run in order. -/
def runOps (self : USimClientComponent) : List Op → USimClientComponent
  | [] => self
  | op :: ops => runOps (Op.step self op).1 ops

/-- The request the three dispatch operations build for an endpoint and a body. -/
def postRequest (self : USimClientComponent) (Ep Body : FString) : HttpRequest :=
  { URL := self.BaseURL ++ Ep
    Verb := "POST".toList
    Headers := [("Content-Type".toList, "application/json".toList)]
    Content := Body
    OnProcessRequestComplete := some Completion.HandleResp }

/-! ## Notions the claims about the tick body use -/

/-- The escape sequence of one character: the row of `CharToEscapeSeqMap` that
names it, or the character itself. -/
def escapeChar (c : Char) : FString :=
  if c = '\\' then ['\\', '\\']
  else if c = '\n' then ['\\', 'n']
  else if c = '\r' then ['\\', 'r']
  else if c = '\t' then ['\\', 't']
  else if c = Char.ofNat 39 then ['\\', Char.ofNat 39]
  else if c = '"' then ['\\', '"']
  else [c]

/-- The number of backslashes the text ends in. -/
def trailingBackslashes (s : FString) : Nat :=
  (s.reverse.takeWhile (fun c => c = '\\')).length

/-- How many U+0000 characters a text holds. -/
def nulCount (s : FString) : Nat :=
  s.count (Char.ofNat 0)

/-- A character `CallTick` carries into the event literal in a form JSON reads
back: no apostrophe, and no control character other than line feed, carriage
return and tab. -/
def JsonSafe (c : Char) : Prop :=
  c ≠ Char.ofNat 39 ∧ (c.toNat < 32 → c = '\n' ∨ c = '\r' ∨ c = '\t')

instance JsonSafe.decidable : DecidablePred JsonSafe := fun c => by
  unfold JsonSafe
  infer_instance


/-! ## Theorems -/

/-! ### The escaping helper -/

theorem escapeChar_composite (c : Char) :
    ReplaceInline '"' ['\\', '"']
      (ReplaceInline (Char.ofNat 39) ['\\', Char.ofNat 39]
        (ReplaceInline '\t' ['\\', 't']
          (ReplaceInline '\r' ['\\', 'r']
            (ReplaceInline '\n' ['\\', 'n']
              (ReplaceInline '\\' ['\\', '\\'] [c])))))
      = escapeChar c := by
  by_cases h1 : c = '\\'
  · subst h1; decide
  by_cases h2 : c = '\n'
  · subst h2; decide
  by_cases h3 : c = '\r'
  · subst h3; decide
  by_cases h4 : c = '\t'
  · subst h4; decide
  by_cases h5 : c = Char.ofNat 39
  · subst h5; decide
  by_cases h6 : c = '"'
  · subst h6; decide
  simp [ReplaceInline, escapeChar, h1, h2, h3, h4, h5, h6]

theorem ReplaceInline_singletons (a : Char) (To s : FString) :
    ReplaceInline a To s = s.flatMap (fun x => ReplaceInline a To [x]) := by
  simp [ReplaceInline]

theorem ReplaceInline_flatMap (a : Char) (To s : FString) (f : Char → FString) :
    ReplaceInline a To (s.flatMap f) = s.flatMap (fun x => ReplaceInline a To (f x)) := by
  simp [ReplaceInline, List.flatMap_assoc]

theorem ReplaceCharWithEscapedChar_eq (s : FString) :
    ReplaceCharWithEscapedChar s = s.flatMap escapeChar := by
  unfold ReplaceCharWithEscapedChar
  split
  · simp only [CharToEscapeSeqMap, List.foldl_cons, List.foldl_nil]
    rw [ReplaceInline_singletons '\\', ReplaceInline_flatMap, ReplaceInline_flatMap,
      ReplaceInline_flatMap, ReplaceInline_flatMap, ReplaceInline_flatMap]
    exact List.flatMap_congr (fun c _ => escapeChar_composite c)
  · next h =>
    have : s = [] := by
      cases s with
      | nil => rfl
      | cons a t => simp at h
    subst this
    rfl

theorem escapeChar_cases (c : Char) :
    (escapeChar c = [c] ∧ c ≠ '"' ∧ c ≠ '\\') ∨ (∃ x, escapeChar c = ['\\', x]) := by
  unfold escapeChar
  by_cases h1 : c = '\\'
  · exact Or.inr ⟨'\\', by simp [h1]⟩
  by_cases h2 : c = '\n'
  · exact Or.inr ⟨'n', by simp [h1, h2]⟩
  by_cases h3 : c = '\r'
  · exact Or.inr ⟨'r', by simp [h1, h2, h3]⟩
  by_cases h4 : c = '\t'
  · exact Or.inr ⟨'t', by simp [h1, h2, h3, h4]⟩
  by_cases h5 : c = Char.ofNat 39
  · exact Or.inr ⟨Char.ofNat 39, by simp [h1, h2, h3, h4, h5]⟩
  by_cases h6 : c = '"'
  · exact Or.inr ⟨'"', by simp [h1, h2, h3, h4, h5, h6]⟩
  · exact Or.inl ⟨by simp [h1, h2, h3, h4, h5, h6], h6, h1⟩

theorem trailingBackslashes_snoc (s : FString) (c : Char) :
    trailingBackslashes (s ++ [c]) = if c = '\\' then trailingBackslashes s + 1 else 0 := by
  unfold trailingBackslashes
  rw [List.reverse_append, List.reverse_singleton, List.singleton_append, List.takeWhile_cons]
  by_cases h : c = '\\' <;> simp [h]

theorem trailingBackslashes_escaped_even (e : FString) :
    trailingBackslashes (e.flatMap escapeChar) % 2 = 0 := by
  induction e using List.reverseRecOn with
  | nil => rfl
  | append_singleton l c ih =>
    rw [List.flatMap_append, List.flatMap_singleton]
    rcases escapeChar_cases c with ⟨h, _, hb⟩ | ⟨x, h⟩
    · rw [h, trailingBackslashes_snoc, if_neg hb]
    · rw [h, show (['\\', x] : FString) = ['\\'] ++ [x] from rfl, ← List.append_assoc,
        trailingBackslashes_snoc, trailingBackslashes_snoc]
      by_cases hx : x = '\\'
      · simp only [hx, if_true]
        omega
      · simp [hx]

theorem quote_in_escaped (e pre post : FString)
    (h : e.flatMap escapeChar = pre ++ '"' :: post) :
    ∃ l : FString, pre = l.flatMap escapeChar ++ ['\\'] := by
  induction e generalizing pre with
  | nil =>
    simp at h
  | cons c e ih =>
    rw [List.flatMap_cons] at h
    rcases escapeChar_cases c with ⟨hc, hq, _⟩ | ⟨x, hc⟩
    · rw [hc] at h
      cases pre with
      | nil =>
        simp only [List.singleton_append, List.nil_append, List.cons.injEq] at h
        exact absurd h.1 hq
      | cons a pre2 =>
        simp only [List.singleton_append, List.cons_append, List.cons.injEq] at h
        obtain ⟨l, hl⟩ := ih pre2 h.2
        refine ⟨c :: l, ?_⟩
        rw [List.flatMap_cons, hc, hl, h.1]
        rfl
    · rw [hc] at h
      cases pre with
      | nil =>
        simp only [List.cons_append, List.nil_append, List.cons.injEq] at h
        exact absurd h.1 (by decide)
      | cons a pre2 =>
        cases pre2 with
        | nil =>
          simp only [List.cons_append, List.nil_append, List.cons.injEq] at h
          exact ⟨[], by simp [← h.1]⟩
        | cons b pre3 =>
          simp only [List.cons_append, List.nil_append, List.cons.injEq] at h
          obtain ⟨l, hl⟩ := ih pre3 h.2.2
          refine ⟨c :: l, ?_⟩
          rw [List.flatMap_cons, hc, hl, ← h.1, ← h.2.1]
          rfl

theorem scanLiteral_cons (c : Char) (cs : FString) :
    scanLiteral (c :: cs) =
      if c = '"' then some ([], cs)
      else if c = '\\' then
        match cs with
        | [] => none
        | d :: ds => consChar c (consChar d (scanLiteral ds))
      else consChar c (scanLiteral cs) := by
  cases cs <;> rfl

theorem scanLiteral_escaped (e rest : FString) :
    scanLiteral (e.flatMap escapeChar ++ '"' :: rest) = some (e.flatMap escapeChar, rest) := by
  induction e with
  | nil =>
    rw [List.flatMap_nil, List.nil_append, scanLiteral_cons]
    simp
  | cons c e ih =>
    rw [List.flatMap_cons]
    rcases escapeChar_cases c with ⟨hc, hq, hb⟩ | ⟨x, hc⟩
    · rw [hc, List.singleton_append, List.cons_append, scanLiteral_cons, if_neg hq, if_neg hb, ih]
      rfl
    · rw [hc]
      show scanLiteral ('\\' :: x :: (e.flatMap escapeChar ++ '"' :: rest)) = _
      rw [scanLiteral_cons, if_neg (by decide), if_pos rfl]
      simp only [ih]
      rfl

/-! ### The JSON reader: unfolding -/

theorem skipWhitespace_cons (c : Char) (cs : FString) :
    skipWhitespace (c :: cs) = if isWhitespace c then skipWhitespace cs else c :: cs := rfl

theorem skipWhitespace_of_not (c : Char) (cs : FString) (h : isWhitespace c = false) :
    skipWhitespace (c :: cs) = c :: cs := by
  rw [skipWhitespace_cons, h]
  rfl

theorem readDigits_cons (c : Char) (cs : FString) :
    readDigits (c :: cs) = if '0' ≤ c ∧ c ≤ '9' then
      ((c.toNat - 48) :: (readDigits cs).1, (readDigits cs).2) else ([], c :: cs) := rfl

theorem readValue_succ (n : Nat) (s : FString) :
    readValue (n + 1) s =
      match skipWhitespace s with
      | [] => none
      | c :: cs =>
        if c = '\x7b' then
          match skipWhitespace cs with
          | [] => none
          | d :: ds =>
            if d = '\x7d' then some (FJsonValue.object [], ds)
            else (readMembers n (d :: ds)).map (fun r => (FJsonValue.object r.1, r.2))
        else if c = '[' then
          match skipWhitespace cs with
          | [] => none
          | d :: ds =>
            if d = ']' then some (FJsonValue.array [], ds)
            else (readElements n (d :: ds)).map (fun r => (FJsonValue.array r.1, r.2))
        else if c = '"' then
          (readString cs).map (fun r => (FJsonValue.string r.1, r.2))
        else if c = 't' then
          (expectWord ['r', 'u', 'e'] cs).map (fun r => (FJsonValue.boolean true, r))
        else if c = 'f' then
          (expectWord ['a', 'l', 's', 'e'] cs).map (fun r => (FJsonValue.boolean false, r))
        else if c = 'n' then
          (expectWord ['u', 'l', 'l'] cs).map (fun r => (FJsonValue.null, r))
        else readNumber (c :: cs) := by
  rw [readValue]

theorem readMembers_succ (n : Nat) (s : FString) :
    readMembers (n + 1) s =
      match skipWhitespace s with
      | [] => none
      | q :: s1 =>
        if q = '"' then
          match readString s1 with
          | none => none
          | some (key, s2) =>
            match skipWhitespace s2 with
            | [] => none
            | colon :: s3 =>
              if colon = ':' then
                match readValue n s3 with
                | none => none
                | some (v, s4) =>
                  match skipWhitespace s4 with
                  | [] => none
                  | sep :: s5 =>
                    if sep = ',' then
                      (readMembers n s5).map (fun r => ((key, v) :: r.1, r.2))
                    else if sep = '\x7d' then some ([(key, v)], s5)
                    else none
              else none
        else none := by
  rw [readMembers]

theorem readElements_succ (n : Nat) (s : FString) :
    readElements (n + 1) s =
      match readValue n s with
      | none => none
      | some (v, s1) =>
        match skipWhitespace s1 with
        | [] => none
        | sep :: s2 =>
          if sep = ',' then (readElements n s2).map (fun r => (v :: r.1, r.2))
          else if sep = ']' then some ([v], s2)
          else none := by
  rw [readElements]

theorem decodeRawAux_succ_cons (n : Nat) (c : Char) (cs : FString) :
    decodeRawAux (n + 1) (c :: cs) =
      if c = '\\' then
        match readEscape cs with
        | none => none
        | some (x, rest) => (decodeRawAux n rest).map (fun r => x :: r)
      else if c = '"' then none
      else if c.toNat < 32 then none
      else (decodeRawAux n cs).map (fun r => c :: r) := by
  rw [decodeRawAux]

theorem decodeRawAux_nil (n : Nat) : decodeRawAux n [] = some [] := by
  cases n <;> rfl

theorem decodeRawAux_plain (n : Nat) (c : Char) (cs : FString) (h1 : c ≠ '\\') (h2 : c ≠ '"')
    (h3 : ¬ c.toNat < 32) :
    decodeRawAux (n + 1) (c :: cs) = (decodeRawAux n cs).map (fun r => c :: r) := by
  rw [decodeRawAux]
  simp only [if_neg h1, if_neg h2, if_neg h3]

theorem decodeRawAux_escape (n : Nat) (d : Char) (ds : FString) (x : Char) (h1 : d ≠ 'u')
    (h2 : unescape d = some x) :
    decodeRawAux (n + 1) ('\\' :: d :: ds) = (decodeRawAux n ds).map (fun r => x :: r) := by
  rw [decodeRawAux]
  simp only [if_true, readEscape, if_neg h1, h2, Option.map_some']

/-! ### The JSON reader: every reader consumes text, and the fuel is enough -/

theorem skipWhitespace_length_le (s : FString) : (skipWhitespace s).length ≤ s.length := by
  induction s with
  | nil => exact le_refl _
  | cons c cs ih =>
    rw [skipWhitespace_cons]
    by_cases h : isWhitespace c = true
    · rw [if_pos h]
      exact le_trans ih (Nat.le_succ _)
    · rw [if_neg h]

theorem skipWhitespace_cons_length (s : FString) (c : Char) (cs : FString)
    (h : skipWhitespace s = c :: cs) : cs.length < s.length := by
  have := skipWhitespace_length_le s
  rw [h, List.length_cons] at this
  omega

theorem scanLiteral_length_aux (n : Nat) :
    ∀ s raw r, s.length ≤ n → scanLiteral s = some (raw, r) → r.length < s.length := by
  induction n with
  | zero =>
    intro s raw r hn h
    have : s = [] := List.length_eq_zero.mp (Nat.le_zero.mp hn)
    subst this
    simp [scanLiteral] at h
  | succ n ih =>
    intro s raw r hn h
    cases s with
    | nil => simp [scanLiteral] at h
    | cons c cs =>
      rw [scanLiteral_cons] at h
      simp only [List.length_cons] at hn ⊢
      by_cases hq : c = '"'
      · rw [if_pos hq] at h
        simp only [Option.some.injEq, Prod.mk.injEq] at h
        rw [← h.2]
        omega
      · rw [if_neg hq] at h
        by_cases hb : c = '\\'
        · rw [if_pos hb] at h
          cases cs with
          | nil => simp at h
          | cons d ds =>
            simp only [List.length_cons] at hn ⊢
            simp only at h
            cases hd : scanLiteral ds with
            | none => simp [hd, consChar] at h
            | some x =>
              obtain ⟨raw2, r2⟩ := x
              rw [hd] at h
              simp only [consChar, Option.map_some', Option.some.injEq, Prod.mk.injEq] at h
              have := ih ds raw2 r2 (by omega) hd
              rw [← h.2]
              omega
        · rw [if_neg hb] at h
          cases hd : scanLiteral cs with
          | none => simp [hd, consChar] at h
          | some x =>
            obtain ⟨raw2, r2⟩ := x
            rw [hd] at h
            simp only [consChar, Option.map_some', Option.some.injEq, Prod.mk.injEq] at h
            have := ih cs raw2 r2 (by omega) hd
            rw [← h.2]
            omega

theorem readString_length (s x r : FString) (h : readString s = some (x, r)) :
    r.length < s.length := by
  unfold readString at h
  cases hs : scanLiteral s with
  | none => simp [hs] at h
  | some y =>
    obtain ⟨raw, r2⟩ := y
    rw [hs] at h
    obtain ⟨z, _, hz⟩ := Option.map_eq_some'.mp h
    simp only [Prod.mk.injEq] at hz
    rw [← hz.2]
    exact scanLiteral_length_aux s.length s raw r2 (le_refl _) hs

theorem readDigits_length (s : FString) : (readDigits s).2.length ≤ s.length := by
  induction s with
  | nil => exact le_refl _
  | cons c cs ih =>
    rw [readDigits_cons]
    by_cases h : '0' ≤ c ∧ c ≤ '9'
    · rw [if_pos h]
      exact le_trans ih (Nat.le_succ _)
    · rw [if_neg h]

theorem readDigits_length_eq (s : FString) :
    (readDigits s).2.length + (readDigits s).1.length = s.length := by
  induction s with
  | nil => rfl
  | cons c cs ih =>
    rw [readDigits_cons]
    by_cases h : '0' ≤ c ∧ c ≤ '9'
    · rw [if_pos h]
      simp only [List.length_cons]
      omega
    · rw [if_neg h]
      rfl

theorem readInt_length (s : FString) (ds : List Nat) (r : FString)
    (h : readInt s = some (ds, r)) : r.length < s.length := by
  unfold readInt at h
  have hl := readDigits_length_eq s
  rcases hd : readDigits s with ⟨l, r2⟩
  rw [hd] at h hl
  match l, h, hl with
  | [], h, _ => simp at h
  | [d], h, hl =>
    simp only [Option.some.injEq, Prod.mk.injEq] at h
    simp only [List.length_cons, List.length_nil] at hl
    rw [← h.2]
    omega
  | d :: d2 :: l2, h, hl =>
    simp only at h
    by_cases hz : d = 0
    · simp [hz] at h
    · rw [if_neg hz] at h
      simp only [Option.some.injEq, Prod.mk.injEq] at h
      simp only [List.length_cons] at hl
      rw [← h.2]
      omega

theorem readFrac_length (s : FString) (ds : List Nat) (r : FString)
    (h : readFrac s = some (ds, r)) : r.length ≤ s.length := by
  unfold readFrac at h
  cases s with
  | nil =>
    simp only [Option.some.injEq, Prod.mk.injEq] at h
    rw [← h.2]
  | cons c cs =>
    simp only at h
    by_cases hc : c = '.'
    · rw [if_pos hc] at h
      have hl := readDigits_length cs
      rcases hd : readDigits cs with ⟨l, r2⟩
      rw [hd] at h hl
      match l, h with
      | [], h => simp at h
      | d :: l2, h =>
        simp only [Option.some.injEq, Prod.mk.injEq] at h
        rw [← h.2, List.length_cons]
        exact le_trans hl (Nat.le_succ _)
    · rw [if_neg hc] at h
      simp only [Option.some.injEq, Prod.mk.injEq] at h
      rw [← h.2]

theorem readExp_length (s : FString) (e : Int) (r : FString)
    (h : readExp s = some (e, r)) : r.length ≤ s.length := by
  unfold readExp at h
  cases s with
  | nil =>
    simp only [Option.some.injEq, Prod.mk.injEq] at h
    rw [← h.2]
  | cons c cs =>
    simp only at h
    by_cases hc : c = 'e' ∨ c = 'E'
    · rw [if_pos hc] at h
      cases cs with
      | nil => simp at h
      | cons g gs =>
        simp only at h
        by_cases hg : g = '-'
        · rw [if_pos hg] at h
          have hl := readDigits_length gs
          rcases hd : readDigits gs with ⟨l, r2⟩
          rw [hd] at h hl
          match l, h with
          | [], h => simp at h
          | d :: l2, h =>
            simp only [Option.some.injEq, Prod.mk.injEq] at h
            rw [← h.2]
            simp only [List.length_cons] at hl ⊢
            omega
        · rw [if_neg hg] at h
          have hl := readDigits_length (if g = '+' then gs else g :: gs)
          have hl2 : (if g = '+' then gs else g :: gs).length ≤ (g :: gs).length := by
            by_cases hp : g = '+'
            · rw [if_pos hp]
              exact Nat.le_succ _
            · rw [if_neg hp]
          rcases hd : readDigits (if g = '+' then gs else g :: gs) with ⟨l, r2⟩
          rw [hd] at h hl
          match l, h with
          | [], h => simp at h
          | d :: l2, h =>
            simp only [Option.some.injEq, Prod.mk.injEq] at h
            rw [← h.2]
            simp only [List.length_cons] at hl hl2 ⊢
            omega
    · rw [if_neg hc] at h
      simp only [Option.some.injEq, Prod.mk.injEq] at h
      rw [← h.2]

theorem readUnsigned_length (s : FString) (x : Nat × Int) (r : FString)
    (h : readUnsigned s = some (x, r)) : r.length < s.length := by
  unfold readUnsigned at h
  cases h1 : readInt s with
  | none => simp [h1] at h
  | some a =>
    obtain ⟨ip, r1⟩ := a
    rw [h1] at h
    simp only at h
    cases h2 : readFrac r1 with
    | none => simp [h2] at h
    | some b =>
      obtain ⟨fp, r2⟩ := b
      rw [h2] at h
      simp only at h
      cases h3 : readExp r2 with
      | none => simp [h3] at h
      | some c =>
        obtain ⟨e, r3⟩ := c
        rw [h3] at h
        simp only [Option.some.injEq, Prod.mk.injEq] at h
        rw [← h.2]
        exact lt_of_le_of_lt (readExp_length r2 e r3 h3)
          (lt_of_le_of_lt (readFrac_length r1 fp r2 h2) (readInt_length s ip r1 h1))

theorem readNumber_length (s : FString) (v : FJsonValue) (r : FString)
    (h : readNumber s = some (v, r)) : r.length < s.length := by
  unfold readNumber at h
  cases s with
  | nil => simp at h
  | cons c cs =>
    simp only at h
    by_cases hc : c = '-'
    · rw [if_pos hc] at h
      obtain ⟨⟨x, r2⟩, hu, heq⟩ := Option.map_eq_some'.mp h
      simp only [Prod.mk.injEq] at heq
      rw [← heq.2, List.length_cons]
      exact lt_trans (readUnsigned_length cs x r2 hu) (Nat.lt_succ_self _)
    · rw [if_neg hc] at h
      obtain ⟨⟨x, r2⟩, hu, heq⟩ := Option.map_eq_some'.mp h
      simp only [Prod.mk.injEq] at heq
      rw [← heq.2]
      exact readUnsigned_length (c :: cs) x r2 hu

theorem expectWord_length (w s r : FString) (h : expectWord w s = some r) :
    r.length ≤ s.length := by
  unfold expectWord at h
  by_cases hp : w.isPrefixOf s = true
  · rw [if_pos hp] at h
    simp only [Option.some.injEq] at h
    rw [← h, List.length_drop]
    omega
  · rw [if_neg hp] at h
    cases h

theorem read_fuel (n : Nat) :
    (∀ s v r, readValue n s = some (v, r) →
        r.length < s.length ∧ ∀ m, s.length ≤ m + r.length → readValue m s = some (v, r))
    ∧ (∀ s fs r, readMembers n s = some (fs, r) →
        r.length < s.length ∧ ∀ m, s.length ≤ m + r.length → readMembers m s = some (fs, r))
    ∧ (∀ s vs r, readElements n s = some (vs, r) →
        r.length < s.length ∧ ∀ m, s.length ≤ m + r.length → readElements m s = some (vs, r)) := by
  induction n with
  | zero =>
    refine ⟨?_, ?_, ?_⟩ <;> intro s v r h
    · simp [readValue] at h
    · simp [readMembers] at h
    · simp [readElements] at h
  | succ n ih =>
    obtain ⟨ihV, ihM, ihE⟩ := ih
    refine ⟨?_, ?_, ?_⟩
    · intro s v r h
      rw [readValue_succ] at h
      cases hs : skipWhitespace s with
      | nil => simp [hs] at h
      | cons c cs =>
        rw [hs] at h
        have hlen := skipWhitespace_cons_length s c cs hs
        simp only at h
        by_cases h1 : c = '\x7b'
        · rw [if_pos h1] at h
          cases hcs : skipWhitespace cs with
          | nil => simp [hcs] at h
          | cons d ds =>
            rw [hcs] at h
            have hlen2 := skipWhitespace_cons_length cs d ds hcs
            simp only at h
            by_cases hd : d = '\x7d'
            · rw [if_pos hd] at h
              simp only [Option.some.injEq, Prod.mk.injEq] at h
              obtain ⟨hv, hr⟩ := h
              subst hv hr
              refine ⟨by omega, fun m hm => ?_⟩
              obtain ⟨k, rfl⟩ : ∃ k, m = k + 1 := ⟨m - 1, by omega⟩
              rw [readValue_succ, hs]
              simp only
              rw [if_pos h1, hcs]
              simp only
              rw [if_pos hd]
            · rw [if_neg hd] at h
              obtain ⟨⟨fs, r2⟩, hm2, heq⟩ := Option.map_eq_some'.mp h
              simp only [Prod.mk.injEq] at heq
              obtain ⟨hv, hr⟩ := heq
              subst hv hr
              obtain ⟨hl, hf⟩ := ihM (d :: ds) fs r2 hm2
              simp only [List.length_cons] at hl hf
              refine ⟨by omega, fun m hm => ?_⟩
              obtain ⟨k, rfl⟩ : ∃ k, m = k + 1 := ⟨m - 1, by omega⟩
              rw [readValue_succ, hs]
              simp only
              rw [if_pos h1, hcs]
              simp only
              rw [if_neg hd, hf k (by omega)]
              rfl
        · rw [if_neg h1] at h
          by_cases h2 : c = '['
          · rw [if_pos h2] at h
            cases hcs : skipWhitespace cs with
            | nil => simp [hcs] at h
            | cons d ds =>
              rw [hcs] at h
              have hlen2 := skipWhitespace_cons_length cs d ds hcs
              simp only at h
              by_cases hd : d = ']'
              · rw [if_pos hd] at h
                simp only [Option.some.injEq, Prod.mk.injEq] at h
                obtain ⟨hv, hr⟩ := h
                subst hv hr
                refine ⟨by omega, fun m hm => ?_⟩
                obtain ⟨k, rfl⟩ : ∃ k, m = k + 1 := ⟨m - 1, by omega⟩
                rw [readValue_succ, hs]
                simp only
                rw [if_neg h1, if_pos h2, hcs]
                simp only
                rw [if_pos hd]
              · rw [if_neg hd] at h
                obtain ⟨⟨vs, r2⟩, hm2, heq⟩ := Option.map_eq_some'.mp h
                simp only [Prod.mk.injEq] at heq
                obtain ⟨hv, hr⟩ := heq
                subst hv hr
                obtain ⟨hl, hf⟩ := ihE (d :: ds) vs r2 hm2
                simp only [List.length_cons] at hl hf
                refine ⟨by omega, fun m hm => ?_⟩
                obtain ⟨k, rfl⟩ : ∃ k, m = k + 1 := ⟨m - 1, by omega⟩
                rw [readValue_succ, hs]
                simp only
                rw [if_neg h1, if_pos h2, hcs]
                simp only
                rw [if_neg hd, hf k (by omega)]
                rfl
          · rw [if_neg h2] at h
            have same : ∀ m, s.length ≤ m + r.length → r.length < s.length →
                readValue m s = some (v, r) := by
              intro m hm hlt
              obtain ⟨k, rfl⟩ : ∃ k, m = k + 1 := ⟨m - 1, by omega⟩
              rw [readValue_succ, hs]
              simp only
              rw [if_neg h1, if_neg h2]
              exact h
            have hr : r.length ≤ cs.length := by
              by_cases h3 : c = '"'
              · rw [if_pos h3] at h
                obtain ⟨⟨x, r2⟩, hm2, heq⟩ := Option.map_eq_some'.mp h
                simp only [Prod.mk.injEq] at heq
                rw [← heq.2]
                exact le_of_lt (readString_length cs x r2 hm2)
              · rw [if_neg h3] at h
                by_cases h4 : c = 't'
                · rw [if_pos h4] at h
                  obtain ⟨r2, hm2, heq⟩ := Option.map_eq_some'.mp h
                  simp only [Prod.mk.injEq] at heq
                  rw [← heq.2]
                  exact expectWord_length _ cs r2 hm2
                · rw [if_neg h4] at h
                  by_cases h5 : c = 'f'
                  · rw [if_pos h5] at h
                    obtain ⟨r2, hm2, heq⟩ := Option.map_eq_some'.mp h
                    simp only [Prod.mk.injEq] at heq
                    rw [← heq.2]
                    exact expectWord_length _ cs r2 hm2
                  · rw [if_neg h5] at h
                    by_cases h6 : c = 'n'
                    · rw [if_pos h6] at h
                      obtain ⟨r2, hm2, heq⟩ := Option.map_eq_some'.mp h
                      simp only [Prod.mk.injEq] at heq
                      rw [← heq.2]
                      exact expectWord_length _ cs r2 hm2
                    · rw [if_neg h6] at h
                      have := readNumber_length (c :: cs) v r h
                      simp only [List.length_cons] at this
                      omega
            exact ⟨by omega, fun m hm => same m hm (by omega)⟩
    · intro s fs r h
      rw [readMembers_succ] at h
      cases hs : skipWhitespace s with
      | nil => simp [hs] at h
      | cons q s1 =>
        rw [hs] at h
        have hlen := skipWhitespace_cons_length s q s1 hs
        simp only at h
        by_cases hq : q = '"'
        · rw [if_pos hq] at h
          cases hkey : readString s1 with
          | none => simp [hkey] at h
          | some a =>
            obtain ⟨key, s2⟩ := a
            rw [hkey] at h
            have hlen1 := readString_length s1 key s2 hkey
            simp only at h
            cases hs2 : skipWhitespace s2 with
            | nil => simp [hs2] at h
            | cons colon s3 =>
              rw [hs2] at h
              have hlen2 := skipWhitespace_cons_length s2 colon s3 hs2
              simp only at h
              by_cases hc : colon = ':'
              · rw [if_pos hc] at h
                cases hv : readValue n s3 with
                | none => simp [hv] at h
                | some b =>
                  obtain ⟨v, s4⟩ := b
                  rw [hv] at h
                  obtain ⟨hlv, hfv⟩ := ihV s3 v s4 hv
                  simp only at h
                  cases hs4 : skipWhitespace s4 with
                  | nil => simp [hs4] at h
                  | cons sep s5 =>
                    rw [hs4] at h
                    have hlen4 := skipWhitespace_cons_length s4 sep s5 hs4
                    simp only at h
                    have unfold_at : ∀ k, s3.length ≤ k + s4.length →
                        readMembers (k + 1) s =
                          if sep = ',' then
                            (readMembers k s5).map (fun r => ((key, v) :: r.1, r.2))
                          else if sep = '\x7d' then some ([(key, v)], s5)
                          else none := by
                      intro k hk
                      rw [readMembers_succ, hs]
                      simp only
                      rw [if_pos hq, hkey]
                      simp only
                      rw [hs2]
                      simp only
                      rw [if_pos hc, hfv k hk]
                      simp only
                      rw [hs4]
                    by_cases hsep : sep = ','
                    · rw [if_pos hsep] at h
                      obtain ⟨⟨fs2, r2⟩, hm2, heq⟩ := Option.map_eq_some'.mp h
                      simp only [Prod.mk.injEq] at heq
                      obtain ⟨hfs, hr⟩ := heq
                      subst hfs hr
                      obtain ⟨hlm, hfm⟩ := ihM s5 fs2 r2 hm2
                      refine ⟨by omega, fun m hm => ?_⟩
                      obtain ⟨k, rfl⟩ : ∃ k, m = k + 1 := ⟨m - 1, by omega⟩
                      rw [unfold_at k (by omega), if_pos hsep, hfm k (by omega)]
                      rfl
                    · rw [if_neg hsep] at h
                      by_cases hb : sep = '\x7d'
                      · rw [if_pos hb] at h
                        simp only [Option.some.injEq, Prod.mk.injEq] at h
                        obtain ⟨hfs, hr⟩ := h
                        subst hfs hr
                        refine ⟨by omega, fun m hm => ?_⟩
                        obtain ⟨k, rfl⟩ : ∃ k, m = k + 1 := ⟨m - 1, by omega⟩
                        rw [unfold_at k (by omega), if_neg hsep, if_pos hb]
                      · rw [if_neg hb] at h
                        cases h
              · rw [if_neg hc] at h
                cases h
        · rw [if_neg hq] at h
          cases h
    · intro s vs r h
      rw [readElements_succ] at h
      cases hv : readValue n s with
      | none => simp [hv] at h
      | some b =>
        obtain ⟨v, s1⟩ := b
        rw [hv] at h
        obtain ⟨hlv, hfv⟩ := ihV s v s1 hv
        simp only at h
        cases hs1 : skipWhitespace s1 with
        | nil => simp [hs1] at h
        | cons sep s2 =>
          rw [hs1] at h
          have hlen1 := skipWhitespace_cons_length s1 sep s2 hs1
          simp only at h
          have unfold_at : ∀ k, s.length ≤ k + s1.length →
              readElements (k + 1) s =
                if sep = ',' then (readElements k s2).map (fun r => (v :: r.1, r.2))
                else if sep = ']' then some ([v], s2)
                else none := by
            intro k hk
            rw [readElements_succ, hfv k hk]
            simp only
            rw [hs1]
          by_cases hsep : sep = ','
          · rw [if_pos hsep] at h
            obtain ⟨⟨vs2, r2⟩, hm2, heq⟩ := Option.map_eq_some'.mp h
            simp only [Prod.mk.injEq] at heq
            obtain ⟨hvs, hr⟩ := heq
            subst hvs hr
            obtain ⟨hle, hfe⟩ := ihE s2 vs2 r2 hm2
            refine ⟨by omega, fun m hm => ?_⟩
            obtain ⟨k, rfl⟩ : ∃ k, m = k + 1 := ⟨m - 1, by omega⟩
            rw [unfold_at k (by omega), if_pos hsep, hfe k (by omega)]
            rfl
          · rw [if_neg hsep] at h
            by_cases hb : sep = ']'
            · rw [if_pos hb] at h
              simp only [Option.some.injEq, Prod.mk.injEq] at h
              obtain ⟨hvs, hr⟩ := h
              subst hvs hr
              refine ⟨by omega, fun m hm => ?_⟩
              obtain ⟨k, rfl⟩ : ∃ k, m = k + 1 := ⟨m - 1, by omega⟩
              rw [unfold_at k (by omega), if_neg hsep, if_pos hb]
            · rw [if_neg hb] at h
              cases h

/-- The fuel `parseJson` gives the reader is enough: a text that some amount of
fuel reads as a whole JSON text, `parseJson` reads to the same value. -/
theorem parseJson_of_readValue (n : Nat) (s : FString) (v : FJsonValue) (r : FString)
    (h : readValue n s = some (v, r)) (hr : skipWhitespace r = []) :
    parseJson s = some v := by
  unfold parseJson
  rw [((read_fuel n).1 s v r h).2 (s.length + 1) (by omega)]
  simp only
  rw [if_pos hr]

theorem readUnicode_length (s : FString) (x : Char) (r : FString)
    (h : readUnicode s = some (x, r)) : r.length < s.length := by
  unfold readUnicode at h
  split at h
  · next h1 h2 h3 h4 rest =>
    split at h
    · cases h
    · next hi _ =>
      split at h
      · simp only [Option.some.injEq, Prod.mk.injEq] at h
        rw [← h.2]
        simp only [List.length_cons]
        omega
      · split at h
        · cases h
        · split at h
          · next b u l1 l2 l3 l4 rest2 =>
            split at h
            · split at h
              · cases h
              · split at h
                · simp only [Option.some.injEq, Prod.mk.injEq] at h
                  rw [← h.2]
                  simp only [List.length_cons]
                  omega
                · cases h
            · cases h
          · cases h
  · cases h

theorem readEscape_length (s : FString) (x : Char) (r : FString)
    (h : readEscape s = some (x, r)) : r.length < s.length := by
  unfold readEscape at h
  cases s with
  | nil => cases h
  | cons d ds =>
    simp only at h
    by_cases hu : d = 'u'
    · rw [if_pos hu] at h
      have := readUnicode_length ds x r h
      simp only [List.length_cons]
      omega
    · rw [if_neg hu] at h
      obtain ⟨y, _, hy⟩ := Option.map_eq_some'.mp h
      simp only [Prod.mk.injEq] at hy
      rw [← hy.2]
      exact Nat.lt_succ_self _

theorem decodeRawAux_fuel (n : Nat) :
    ∀ s x, decodeRawAux n s = some x → ∀ m, s.length ≤ m → decodeRawAux m s = some x := by
  induction n with
  | zero =>
    intro s x h m _
    cases s with
    | nil =>
      rw [decodeRawAux_nil] at h ⊢
      exact h
    | cons c cs => simp [decodeRawAux] at h
  | succ n ih =>
    intro s x h m hm
    cases s with
    | nil =>
      rw [decodeRawAux_nil] at h ⊢
      exact h
    | cons c cs =>
      simp only [List.length_cons] at hm
      obtain ⟨k, rfl⟩ : ∃ k, m = k + 1 := ⟨m - 1, by omega⟩
      rw [decodeRawAux_succ_cons] at h ⊢
      by_cases hb : c = '\\'
      · rw [if_pos hb] at h ⊢
        cases he : readEscape cs with
        | none => simp [he] at h
        | some a =>
          obtain ⟨y, rest⟩ := a
          rw [he] at h
          simp only at h ⊢
          have hl := readEscape_length cs y rest he
          obtain ⟨z, hz, heq⟩ := Option.map_eq_some'.mp h
          rw [ih rest z hz k (by omega)]
          exact congrArg some heq
      · rw [if_neg hb] at h ⊢
        by_cases hq : c = '"'
        · rw [if_pos hq] at h
          cases h
        · rw [if_neg hq] at h ⊢
          by_cases hlt : c.toNat < 32
          · rw [if_pos hlt] at h
            cases h
          · rw [if_neg hlt] at h ⊢
            obtain ⟨z, hz, heq⟩ := Option.map_eq_some'.mp h
            rw [ih cs z hz k (by omega)]
            exact congrArg some heq

/-- The fuel `decodeRaw` gives is enough: raw content that some amount of fuel
decodes, `decodeRaw` decodes to the same text. -/
theorem decodeRaw_of_decodeRawAux (n : Nat) (s x : FString)
    (h : decodeRawAux n s = some x) : decodeRaw s = some x :=
  decodeRawAux_fuel n s x h s.length (le_refl _)

/-! ### The JSON reader: a JSON text holds no U+0000 -/

theorem nulCount_cons (c : Char) (cs : FString) :
    nulCount (c :: cs) = nulCount cs + if c = Char.ofNat 0 then 1 else 0 := by
  unfold nulCount
  rw [List.count_cons]
  by_cases h : c = Char.ofNat 0
  · simp [h]
  · simp [h]

theorem nulCount_cons_of_ne (c : Char) (cs : FString) (h : c ≠ Char.ofNat 0) :
    nulCount (c :: cs) = nulCount cs := by
  rw [nulCount_cons, if_neg h]
  rfl

theorem nulCount_append (s t : FString) : nulCount (s ++ t) = nulCount s + nulCount t := by
  unfold nulCount
  exact List.count_append _ _ _

theorem not_mem_of_nulCount (s : FString) (h : nulCount s = 0) : Char.ofNat 0 ∉ s :=
  List.count_eq_zero.mp h

theorem cString_of_not_mem (s : FString) (h : Char.ofNat 0 ∉ s) : cString s = s := by
  unfold cString
  rw [List.takeWhile_eq_self_iff]
  intro x hx
  have : x ≠ Char.ofNat 0 := fun hc => h (hc ▸ hx)
  simpa using this

theorem ne_nul_of_whitespace (c : Char) (h : isWhitespace c = true) : c ≠ Char.ofNat 0 := by
  intro hc
  rw [hc] at h
  exact absurd h (by decide)

theorem ne_nul_of_digit (c : Char) (h : '0' ≤ c ∧ c ≤ '9') : c ≠ Char.ofNat 0 := by
  intro hc
  rw [hc] at h
  exact absurd h (by decide)

theorem ne_nul_of_hexDigit (c : Char) (n : Nat) (h : hexDigit c = some n) :
    c ≠ Char.ofNat 0 := by
  intro hc
  rw [hc] at h
  have hn : hexDigit (Char.ofNat 0) = none := by decide
  rw [hn] at h
  cases h

theorem ne_nul_of_unescape (c x : Char) (h : unescape c = some x) : c ≠ Char.ofNat 0 := by
  intro hc
  rw [hc] at h
  have hn : unescape (Char.ofNat 0) = none := by decide
  rw [hn] at h
  cases h

theorem ne_nul_of_not_control (c : Char) (h : ¬ c.toNat < 32) : c ≠ Char.ofNat 0 := by
  intro hc
  rw [hc] at h
  exact h (by decide)

theorem skipWhitespace_nul (s : FString) : nulCount (skipWhitespace s) = nulCount s := by
  induction s with
  | nil => rfl
  | cons c cs ih =>
    rw [skipWhitespace_cons]
    by_cases h : isWhitespace c = true
    · rw [if_pos h, ih, nulCount_cons_of_ne c cs (ne_nul_of_whitespace c h)]
    · rw [if_neg h]

theorem scanLiteral_nul_aux (n : Nat) :
    ∀ s raw r, s.length ≤ n → scanLiteral s = some (raw, r) →
      nulCount s = nulCount raw + nulCount r := by
  induction n with
  | zero =>
    intro s raw r hn h
    have : s = [] := List.length_eq_zero.mp (Nat.le_zero.mp hn)
    subst this
    simp [scanLiteral] at h
  | succ n ih =>
    intro s raw r hn h
    cases s with
    | nil => simp [scanLiteral] at h
    | cons c cs =>
      rw [scanLiteral_cons] at h
      simp only [List.length_cons] at hn
      by_cases hq : c = '"'
      · rw [if_pos hq] at h
        simp only [Option.some.injEq, Prod.mk.injEq] at h
        rw [← h.1, ← h.2, nulCount_cons_of_ne c cs (by rw [hq]; decide)]
        simp [nulCount]
      · rw [if_neg hq] at h
        by_cases hb : c = '\\'
        · rw [if_pos hb] at h
          cases cs with
          | nil => simp at h
          | cons d ds =>
            simp only [List.length_cons] at hn
            simp only at h
            cases hd : scanLiteral ds with
            | none => simp [hd, consChar] at h
            | some x =>
              obtain ⟨raw2, r2⟩ := x
              rw [hd] at h
              simp only [consChar, Option.map_some', Option.some.injEq, Prod.mk.injEq] at h
              have := ih ds raw2 r2 (by omega) hd
              rw [← h.1, ← h.2]
              simp only [nulCount_cons]
              omega
        · rw [if_neg hb] at h
          cases hd : scanLiteral cs with
          | none => simp [hd, consChar] at h
          | some x =>
            obtain ⟨raw2, r2⟩ := x
            rw [hd] at h
            simp only [consChar, Option.map_some', Option.some.injEq, Prod.mk.injEq] at h
            have := ih cs raw2 r2 (by omega) hd
            rw [← h.1, ← h.2]
            simp only [nulCount_cons]
            omega

theorem hex4_ne_nul (a b c d : Char) (n : Nat) (h : hex4 a b c d = some n) :
    a ≠ Char.ofNat 0 ∧ b ≠ Char.ofNat 0 ∧ c ≠ Char.ofNat 0 ∧ d ≠ Char.ofNat 0 := by
  unfold hex4 at h
  cases ha : hexDigit a with
  | none => simp [ha] at h
  | some x =>
    cases hb : hexDigit b with
    | none => simp [ha, hb] at h
    | some y =>
      cases hc : hexDigit c with
      | none => simp [ha, hb, hc] at h
      | some z =>
        cases hd : hexDigit d with
        | none => simp [ha, hb, hc, hd] at h
        | some w =>
          exact ⟨ne_nul_of_hexDigit a x ha, ne_nul_of_hexDigit b y hb,
            ne_nul_of_hexDigit c z hc, ne_nul_of_hexDigit d w hd⟩

theorem readUnicode_nul (s : FString) (x : Char) (r : FString)
    (h : readUnicode s = some (x, r)) : nulCount s = nulCount r := by
  unfold readUnicode at h
  split at h
  · next h1 h2 h3 h4 rest =>
    split at h
    · cases h
    · next hi hhi =>
      obtain ⟨n1, n2, n3, n4⟩ := hex4_ne_nul h1 h2 h3 h4 hi hhi
      have hrest : nulCount (h1 :: h2 :: h3 :: h4 :: rest) = nulCount rest := by
        rw [nulCount_cons_of_ne _ _ n1, nulCount_cons_of_ne _ _ n2,
          nulCount_cons_of_ne _ _ n3, nulCount_cons_of_ne _ _ n4]
      split at h
      · simp only [Option.some.injEq, Prod.mk.injEq] at h
        rw [← h.2, hrest]
      · split at h
        · cases h
        · split at h
          · next b u l1 l2 l3 l4 rest2 =>
            split at h
            · next hbu =>
              split at h
              · cases h
              · next lo hlo =>
                obtain ⟨m1, m2, m3, m4⟩ := hex4_ne_nul l1 l2 l3 l4 lo hlo
                split at h
                · simp only [Option.some.injEq, Prod.mk.injEq] at h
                  rw [← h.2, hrest, nulCount_cons_of_ne _ _ (by rw [hbu.1]; decide),
                    nulCount_cons_of_ne _ _ (by rw [hbu.2]; decide),
                    nulCount_cons_of_ne _ _ m1, nulCount_cons_of_ne _ _ m2,
                    nulCount_cons_of_ne _ _ m3, nulCount_cons_of_ne _ _ m4]
                · cases h
            · cases h
          · cases h
  · cases h

theorem readEscape_nul (s : FString) (x : Char) (r : FString)
    (h : readEscape s = some (x, r)) : nulCount s = nulCount r := by
  unfold readEscape at h
  cases s with
  | nil => cases h
  | cons d ds =>
    simp only at h
    by_cases hu : d = 'u'
    · rw [if_pos hu] at h
      rw [nulCount_cons_of_ne d ds (by rw [hu]; decide)]
      exact readUnicode_nul ds x r h
    · rw [if_neg hu] at h
      obtain ⟨y, hy1, hy⟩ := Option.map_eq_some'.mp h
      simp only [Prod.mk.injEq] at hy
      rw [← hy.2, nulCount_cons_of_ne d ds (ne_nul_of_unescape d y hy1)]

theorem decodeRawAux_nul (n : Nat) :
    ∀ s x, decodeRawAux n s = some x → nulCount s = 0 := by
  induction n with
  | zero =>
    intro s x h
    cases s with
    | nil => rfl
    | cons c cs => simp [decodeRawAux] at h
  | succ n ih =>
    intro s x h
    cases s with
    | nil => rfl
    | cons c cs =>
      rw [decodeRawAux_succ_cons] at h
      by_cases hb : c = '\\'
      · rw [if_pos hb] at h
        cases he : readEscape cs with
        | none => simp [he] at h
        | some a =>
          obtain ⟨y, rest⟩ := a
          rw [he] at h
          simp only at h
          obtain ⟨z, hz, _⟩ := Option.map_eq_some'.mp h
          rw [nulCount_cons_of_ne c cs (by rw [hb]; decide), readEscape_nul cs y rest he]
          exact ih rest z hz
      · rw [if_neg hb] at h
        by_cases hq : c = '"'
        · rw [if_pos hq] at h
          cases h
        · rw [if_neg hq] at h
          by_cases hlt : c.toNat < 32
          · rw [if_pos hlt] at h
            cases h
          · rw [if_neg hlt] at h
            obtain ⟨z, hz, _⟩ := Option.map_eq_some'.mp h
            rw [nulCount_cons_of_ne c cs (ne_nul_of_not_control c hlt)]
            exact ih cs z hz

theorem readString_nul (s x r : FString) (h : readString s = some (x, r)) :
    nulCount s = nulCount r := by
  unfold readString at h
  cases hs : scanLiteral s with
  | none => simp [hs] at h
  | some y =>
    obtain ⟨raw, r2⟩ := y
    rw [hs] at h
    obtain ⟨z, hz1, hz⟩ := Option.map_eq_some'.mp h
    simp only [Prod.mk.injEq] at hz
    have h1 := scanLiteral_nul_aux s.length s raw r2 (le_refl _) hs
    have h2 := decodeRawAux_nul raw.length raw z hz1
    rw [← hz.2]
    omega

theorem readDigits_nul (s : FString) : nulCount (readDigits s).2 = nulCount s := by
  induction s with
  | nil => rfl
  | cons c cs ih =>
    rw [readDigits_cons]
    by_cases h : '0' ≤ c ∧ c ≤ '9'
    · rw [if_pos h, nulCount_cons_of_ne c cs (ne_nul_of_digit c h)]
      exact ih
    · rw [if_neg h]

theorem readInt_nul (s : FString) (ds : List Nat) (r : FString)
    (h : readInt s = some (ds, r)) : nulCount s = nulCount r := by
  unfold readInt at h
  have hl := readDigits_nul s
  rcases hd : readDigits s with ⟨l, r2⟩
  rw [hd] at h hl
  match l, h with
  | [], h => simp at h
  | [d], h =>
    simp only [Option.some.injEq, Prod.mk.injEq] at h
    rw [← h.2]
    exact hl.symm
  | d :: d2 :: l2, h =>
    simp only at h
    by_cases hz : d = 0
    · simp [hz] at h
    · rw [if_neg hz] at h
      simp only [Option.some.injEq, Prod.mk.injEq] at h
      rw [← h.2]
      exact hl.symm

theorem readFrac_nul (s : FString) (ds : List Nat) (r : FString)
    (h : readFrac s = some (ds, r)) : nulCount s = nulCount r := by
  unfold readFrac at h
  cases s with
  | nil =>
    simp only [Option.some.injEq, Prod.mk.injEq] at h
    rw [← h.2]
  | cons c cs =>
    simp only at h
    by_cases hc : c = '.'
    · rw [if_pos hc] at h
      have hl := readDigits_nul cs
      rcases hd : readDigits cs with ⟨l, r2⟩
      rw [hd] at h hl
      match l, h with
      | [], h => simp at h
      | d :: l2, h =>
        simp only [Option.some.injEq, Prod.mk.injEq] at h
        rw [← h.2, nulCount_cons_of_ne c cs (by rw [hc]; decide)]
        exact hl.symm
    · rw [if_neg hc] at h
      simp only [Option.some.injEq, Prod.mk.injEq] at h
      rw [← h.2]

theorem readExp_nul (s : FString) (e : Int) (r : FString)
    (h : readExp s = some (e, r)) : nulCount s = nulCount r := by
  unfold readExp at h
  cases s with
  | nil =>
    simp only [Option.some.injEq, Prod.mk.injEq] at h
    rw [← h.2]
  | cons c cs =>
    simp only at h
    by_cases hc : c = 'e' ∨ c = 'E'
    · rw [if_pos hc] at h
      have hcn : c ≠ Char.ofNat 0 := by
        rcases hc with hc | hc <;> (rw [hc]; decide)
      cases cs with
      | nil => simp at h
      | cons g gs =>
        simp only at h
        by_cases hg : g = '-'
        · rw [if_pos hg] at h
          have hl := readDigits_nul gs
          rcases hd : readDigits gs with ⟨l, r2⟩
          rw [hd] at h hl
          match l, h with
          | [], h => simp at h
          | d :: l2, h =>
            simp only [Option.some.injEq, Prod.mk.injEq] at h
            rw [← h.2, nulCount_cons_of_ne c _ hcn,
              nulCount_cons_of_ne g gs (by rw [hg]; decide)]
            exact hl.symm
        · rw [if_neg hg] at h
          have hl := readDigits_nul (if g = '+' then gs else g :: gs)
          have hl2 : nulCount (if g = '+' then gs else g :: gs) = nulCount (g :: gs) := by
            by_cases hp : g = '+'
            · rw [if_pos hp, nulCount_cons_of_ne g gs (by rw [hp]; decide)]
            · rw [if_neg hp]
          rcases hd : readDigits (if g = '+' then gs else g :: gs) with ⟨l, r2⟩
          rw [hd] at h hl
          match l, h with
          | [], h => simp at h
          | d :: l2, h =>
            simp only [Option.some.injEq, Prod.mk.injEq] at h
            rw [← h.2, nulCount_cons_of_ne c _ hcn, ← hl2]
            exact hl.symm
    · rw [if_neg hc] at h
      simp only [Option.some.injEq, Prod.mk.injEq] at h
      rw [← h.2]

theorem readUnsigned_nul (s : FString) (x : Nat × Int) (r : FString)
    (h : readUnsigned s = some (x, r)) : nulCount s = nulCount r := by
  unfold readUnsigned at h
  cases h1 : readInt s with
  | none => simp [h1] at h
  | some a =>
    obtain ⟨ip, r1⟩ := a
    rw [h1] at h
    simp only at h
    cases h2 : readFrac r1 with
    | none => simp [h2] at h
    | some b =>
      obtain ⟨fp, r2⟩ := b
      rw [h2] at h
      simp only at h
      cases h3 : readExp r2 with
      | none => simp [h3] at h
      | some c =>
        obtain ⟨e, r3⟩ := c
        rw [h3] at h
        simp only [Option.some.injEq, Prod.mk.injEq] at h
        rw [← h.2, readInt_nul s ip r1 h1, readFrac_nul r1 fp r2 h2, readExp_nul r2 e r3 h3]

theorem readNumber_nul (s : FString) (v : FJsonValue) (r : FString)
    (h : readNumber s = some (v, r)) : nulCount s = nulCount r := by
  unfold readNumber at h
  cases s with
  | nil => simp at h
  | cons c cs =>
    simp only at h
    by_cases hc : c = '-'
    · rw [if_pos hc] at h
      obtain ⟨⟨x, r2⟩, hu, heq⟩ := Option.map_eq_some'.mp h
      simp only [Prod.mk.injEq] at heq
      rw [← heq.2, nulCount_cons_of_ne c cs (by rw [hc]; decide)]
      exact readUnsigned_nul cs x r2 hu
    · rw [if_neg hc] at h
      obtain ⟨⟨x, r2⟩, hu, heq⟩ := Option.map_eq_some'.mp h
      simp only [Prod.mk.injEq] at heq
      rw [← heq.2]
      exact readUnsigned_nul (c :: cs) x r2 hu

theorem expectWord_nul (w s r : FString) (hw : nulCount w = 0)
    (h : expectWord w s = some r) : nulCount s = nulCount r := by
  unfold expectWord at h
  by_cases hp : w.isPrefixOf s = true
  · rw [if_pos hp] at h
    obtain ⟨u, rfl⟩ := List.isPrefixOf_iff_prefix.mp hp
    simp only [List.drop_left, Option.some.injEq] at h
    rw [nulCount_append, hw, h]
    omega
  · rw [if_neg hp] at h
    cases h

theorem skipWhitespace_cons_nul (s : FString) (c : Char) (cs : FString)
    (h : skipWhitespace s = c :: cs) (hc : c ≠ Char.ofNat 0) : nulCount s = nulCount cs := by
  rw [← skipWhitespace_nul s, h, nulCount_cons_of_ne c cs hc]

theorem read_nul (n : Nat) :
    (∀ s v r, readValue n s = some (v, r) → nulCount s = nulCount r)
    ∧ (∀ s fs r, readMembers n s = some (fs, r) → nulCount s = nulCount r)
    ∧ (∀ s vs r, readElements n s = some (vs, r) → nulCount s = nulCount r) := by
  induction n with
  | zero =>
    refine ⟨?_, ?_, ?_⟩ <;> intro s v r h
    · simp [readValue] at h
    · simp [readMembers] at h
    · simp [readElements] at h
  | succ n ih =>
    obtain ⟨ihV, ihM, ihE⟩ := ih
    refine ⟨?_, ?_, ?_⟩
    · intro s v r h
      rw [readValue_succ] at h
      cases hs : skipWhitespace s with
      | nil => simp [hs] at h
      | cons c cs =>
        rw [hs] at h
        simp only at h
        have hsc : nulCount s = nulCount (c :: cs) := by rw [← hs, skipWhitespace_nul]
        by_cases h1 : c = '\x7b'
        · rw [if_pos h1] at h
          rw [hsc, nulCount_cons_of_ne c cs (by rw [h1]; decide)]
          cases hcs : skipWhitespace cs with
          | nil => simp [hcs] at h
          | cons d ds =>
            rw [hcs] at h
            simp only at h
            have hcd : nulCount cs = nulCount (d :: ds) := by rw [← hcs, skipWhitespace_nul]
            by_cases hd : d = '\x7d'
            · rw [if_pos hd] at h
              simp only [Option.some.injEq, Prod.mk.injEq] at h
              rw [hcd, ← h.2, nulCount_cons_of_ne d ds (by rw [hd]; decide)]
            · rw [if_neg hd] at h
              obtain ⟨⟨fs, r2⟩, hm2, heq⟩ := Option.map_eq_some'.mp h
              simp only [Prod.mk.injEq] at heq
              rw [hcd, ← heq.2]
              exact ihM (d :: ds) fs r2 hm2
        · rw [if_neg h1] at h
          by_cases h2 : c = '['
          · rw [if_pos h2] at h
            rw [hsc, nulCount_cons_of_ne c cs (by rw [h2]; decide)]
            cases hcs : skipWhitespace cs with
            | nil => simp [hcs] at h
            | cons d ds =>
              rw [hcs] at h
              simp only at h
              have hcd : nulCount cs = nulCount (d :: ds) := by rw [← hcs, skipWhitespace_nul]
              by_cases hd : d = ']'
              · rw [if_pos hd] at h
                simp only [Option.some.injEq, Prod.mk.injEq] at h
                rw [hcd, ← h.2, nulCount_cons_of_ne d ds (by rw [hd]; decide)]
              · rw [if_neg hd] at h
                obtain ⟨⟨vs, r2⟩, hm2, heq⟩ := Option.map_eq_some'.mp h
                simp only [Prod.mk.injEq] at heq
                rw [hcd, ← heq.2]
                exact ihE (d :: ds) vs r2 hm2
          · rw [if_neg h2] at h
            by_cases h3 : c = '"'
            · rw [if_pos h3] at h
              obtain ⟨⟨x, r2⟩, hm2, heq⟩ := Option.map_eq_some'.mp h
              simp only [Prod.mk.injEq] at heq
              rw [hsc, nulCount_cons_of_ne c cs (by rw [h3]; decide), ← heq.2]
              exact readString_nul cs x r2 hm2
            · rw [if_neg h3] at h
              by_cases h4 : c = 't'
              · rw [if_pos h4] at h
                obtain ⟨r2, hm2, heq⟩ := Option.map_eq_some'.mp h
                simp only [Prod.mk.injEq] at heq
                rw [hsc, nulCount_cons_of_ne c cs (by rw [h4]; decide), ← heq.2]
                exact expectWord_nul _ cs r2 (by decide) hm2
              · rw [if_neg h4] at h
                by_cases h5 : c = 'f'
                · rw [if_pos h5] at h
                  obtain ⟨r2, hm2, heq⟩ := Option.map_eq_some'.mp h
                  simp only [Prod.mk.injEq] at heq
                  rw [hsc, nulCount_cons_of_ne c cs (by rw [h5]; decide), ← heq.2]
                  exact expectWord_nul _ cs r2 (by decide) hm2
                · rw [if_neg h5] at h
                  by_cases h6 : c = 'n'
                  · rw [if_pos h6] at h
                    obtain ⟨r2, hm2, heq⟩ := Option.map_eq_some'.mp h
                    simp only [Prod.mk.injEq] at heq
                    rw [hsc, nulCount_cons_of_ne c cs (by rw [h6]; decide), ← heq.2]
                    exact expectWord_nul _ cs r2 (by decide) hm2
                  · rw [if_neg h6] at h
                    rw [hsc]
                    exact readNumber_nul (c :: cs) v r h
    · intro s fs r h
      rw [readMembers_succ] at h
      cases hs : skipWhitespace s with
      | nil => simp [hs] at h
      | cons q s1 =>
        rw [hs] at h
        simp only at h
        by_cases hq : q = '"'
        · rw [if_pos hq] at h
          have e1 := skipWhitespace_cons_nul s q s1 hs (by rw [hq]; decide)
          cases hkey : readString s1 with
          | none => simp [hkey] at h
          | some a =>
            obtain ⟨key, s2⟩ := a
            rw [hkey] at h
            have e2 := readString_nul s1 key s2 hkey
            simp only at h
            cases hs2 : skipWhitespace s2 with
            | nil => simp [hs2] at h
            | cons colon s3 =>
              rw [hs2] at h
              simp only at h
              by_cases hc : colon = ':'
              · rw [if_pos hc] at h
                have e3 := skipWhitespace_cons_nul s2 colon s3 hs2 (by rw [hc]; decide)
                cases hv : readValue n s3 with
                | none => simp [hv] at h
                | some b =>
                  obtain ⟨v, s4⟩ := b
                  rw [hv] at h
                  have e4 := ihV s3 v s4 hv
                  simp only at h
                  cases hs4 : skipWhitespace s4 with
                  | nil => simp [hs4] at h
                  | cons sep s5 =>
                    rw [hs4] at h
                    simp only at h
                    by_cases hsep : sep = ','
                    · rw [if_pos hsep] at h
                      have e5 := skipWhitespace_cons_nul s4 sep s5 hs4 (by rw [hsep]; decide)
                      obtain ⟨⟨fs2, r2⟩, hm2, heq⟩ := Option.map_eq_some'.mp h
                      simp only [Prod.mk.injEq] at heq
                      have e6 := ihM s5 fs2 r2 hm2
                      rw [← heq.2]
                      omega
                    · rw [if_neg hsep] at h
                      by_cases hb : sep = '\x7d'
                      · rw [if_pos hb] at h
                        have e5 := skipWhitespace_cons_nul s4 sep s5 hs4 (by rw [hb]; decide)
                        simp only [Option.some.injEq, Prod.mk.injEq] at h
                        rw [← h.2]
                        omega
                      · rw [if_neg hb] at h
                        cases h
              · rw [if_neg hc] at h
                cases h
        · rw [if_neg hq] at h
          cases h
    · intro s vs r h
      rw [readElements_succ] at h
      cases hv : readValue n s with
      | none => simp [hv] at h
      | some b =>
        obtain ⟨v, s1⟩ := b
        rw [hv] at h
        have e1 := ihV s v s1 hv
        simp only at h
        cases hs1 : skipWhitespace s1 with
        | nil => simp [hs1] at h
        | cons sep s2 =>
          rw [hs1] at h
          simp only at h
          by_cases hsep : sep = ','
          · rw [if_pos hsep] at h
            have e2 := skipWhitespace_cons_nul s1 sep s2 hs1 (by rw [hsep]; decide)
            obtain ⟨⟨vs2, r2⟩, hm2, heq⟩ := Option.map_eq_some'.mp h
            simp only [Prod.mk.injEq] at heq
            have e3 := ihE s2 vs2 r2 hm2
            rw [← heq.2]
            omega
          · rw [if_neg hsep] at h
            by_cases hb : sep = ']'
            · rw [if_pos hb] at h
              have e2 := skipWhitespace_cons_nul s1 sep s2 hs1 (by rw [hb]; decide)
              simp only [Option.some.injEq, Prod.mk.injEq] at h
              rw [← h.2]
              omega
            · rw [if_neg hb] at h
              cases h

/-- A JSON text holds no U+0000: the reader takes no such character as
whitespace, inside a literal, or as part of a number or word. -/
theorem parseJson_no_nul (p : FString) (v : FJsonValue) (h : parseJson p = some v) :
    Char.ofNat 0 ∉ p := by
  unfold parseJson at h
  cases hv : readValue (p.length + 1) p with
  | none => simp [hv] at h
  | some a =>
    obtain ⟨v2, r⟩ := a
    rw [hv] at h
    simp only at h
    by_cases hr : skipWhitespace r = []
    · apply not_mem_of_nulCount
      rw [(read_nul (p.length + 1)).1 p v2 r hv, ← skipWhitespace_nul r, hr]
      rfl
    · rw [if_neg hr] at h
      cases h

/-! ### The JSON reader: a value followed by a closing brace -/

theorem skipWhitespace_append_brace (s t : FString) :
    skipWhitespace (s ++ '\x7d' :: t) = skipWhitespace s ++ '\x7d' :: t := by
  induction s with
  | nil =>
    rw [List.nil_append, skipWhitespace_cons, if_neg (by decide)]
    rfl
  | cons c cs ih =>
    rw [List.cons_append, skipWhitespace_cons, skipWhitespace_cons]
    by_cases h : isWhitespace c = true
    · rw [if_pos h, if_pos h, ih]
    · rw [if_neg h, if_neg h]
      rfl

theorem skipWhitespace_append_cons (s t : FString) (c : Char) (cs : FString)
    (h : skipWhitespace s = c :: cs) :
    skipWhitespace (s ++ '\x7d' :: t) = c :: (cs ++ '\x7d' :: t) := by
  rw [skipWhitespace_append_brace, h]
  rfl

theorem scanLiteral_append_aux (n : Nat) :
    ∀ s raw r t, s.length ≤ n → scanLiteral s = some (raw, r) →
      scanLiteral (s ++ t) = some (raw, r ++ t) := by
  induction n with
  | zero =>
    intro s raw r t hn h
    have : s = [] := List.length_eq_zero.mp (Nat.le_zero.mp hn)
    subst this
    simp [scanLiteral] at h
  | succ n ih =>
    intro s raw r t hn h
    cases s with
    | nil => simp [scanLiteral] at h
    | cons c cs =>
      rw [List.cons_append, scanLiteral_cons]
      rw [scanLiteral_cons] at h
      by_cases hq : c = '"'
      · rw [if_pos hq] at h ⊢
        simp only [Option.some.injEq, Prod.mk.injEq] at h
        rw [← h.1, ← h.2]
      · rw [if_neg hq] at h ⊢
        by_cases hb : c = '\\'
        · rw [if_pos hb] at h ⊢
          cases cs with
          | nil => simp at h
          | cons d ds =>
            simp only [List.cons_append] at h ⊢
            cases hd : scanLiteral ds with
            | none => simp [hd, consChar] at h
            | some x =>
              obtain ⟨raw2, r2⟩ := x
              rw [hd] at h
              rw [ih ds raw2 r2 t (by simp only [List.length_cons] at hn; omega) hd]
              simp only [consChar, Option.map_some', Option.some.injEq, Prod.mk.injEq] at h ⊢
              exact ⟨h.1, by rw [← h.2]⟩
        · rw [if_neg hb] at h ⊢
          cases hd : scanLiteral cs with
          | none => simp [hd, consChar] at h
          | some x =>
            obtain ⟨raw2, r2⟩ := x
            rw [hd] at h
            rw [ih cs raw2 r2 t (by simp only [List.length_cons] at hn; omega) hd]
            simp only [consChar, Option.map_some', Option.some.injEq, Prod.mk.injEq] at h ⊢
            exact ⟨h.1, by rw [← h.2]⟩

theorem readString_append (s x r t : FString) (h : readString s = some (x, r)) :
    readString (s ++ t) = some (x, r ++ t) := by
  unfold readString at h ⊢
  cases hs : scanLiteral s with
  | none => simp [hs] at h
  | some y =>
    obtain ⟨raw, r2⟩ := y
    rw [hs] at h
    rw [scanLiteral_append_aux s.length s raw r2 t (le_refl _) hs]
    cases hd : decodeRaw raw with
    | none => simp [hd] at h
    | some z =>
      simp only [hd, Option.map_some', Option.some.injEq, Prod.mk.injEq] at h ⊢
      exact ⟨h.1, by rw [← h.2]⟩

theorem readDigits_append_brace (s t : FString) :
    readDigits (s ++ '\x7d' :: t) = ((readDigits s).1, (readDigits s).2 ++ '\x7d' :: t) := by
  induction s with
  | nil =>
    rw [List.nil_append, readDigits_cons, if_neg (by decide)]
    rfl
  | cons c cs ih =>
    rw [List.cons_append, readDigits_cons, readDigits_cons]
    by_cases h : '0' ≤ c ∧ c ≤ '9'
    · rw [if_pos h, if_pos h, ih]
    · rw [if_neg h, if_neg h]
      rfl

theorem readInt_append_brace (s t : FString) (ds : List Nat) (r : FString)
    (h : readInt s = some (ds, r)) :
    readInt (s ++ '\x7d' :: t) = some (ds, r ++ '\x7d' :: t) := by
  unfold readInt at h ⊢
  rw [readDigits_append_brace]
  rcases hd : readDigits s with ⟨l, r2⟩
  rw [hd] at h
  match l, h with
  | [], h => simp at h
  | [d], h =>
    simp only [Option.some.injEq, Prod.mk.injEq] at h ⊢
    exact ⟨h.1, by rw [← h.2]⟩
  | d :: d2 :: l2, h =>
    simp only at h ⊢
    by_cases hz : d = 0
    · simp [hz] at h
    · rw [if_neg hz] at h ⊢
      simp only [Option.some.injEq, Prod.mk.injEq] at h ⊢
      exact ⟨h.1, by rw [← h.2]⟩

theorem readFrac_append_brace (s t : FString) (ds : List Nat) (r : FString)
    (h : readFrac s = some (ds, r)) :
    readFrac (s ++ '\x7d' :: t) = some (ds, r ++ '\x7d' :: t) := by
  unfold readFrac at h ⊢
  cases s with
  | nil =>
    simp only [Option.some.injEq, Prod.mk.injEq] at h
    simp only [List.nil_append]
    rw [if_neg (by decide), ← h.1, ← h.2]
    rfl
  | cons c cs =>
    simp only [List.cons_append] at h ⊢
    by_cases hc : c = '.'
    · rw [if_pos hc] at h ⊢
      rw [readDigits_append_brace]
      rcases hd : readDigits cs with ⟨l, r2⟩
      rw [hd] at h
      match l, h with
      | [], h => simp at h
      | d :: l2, h =>
        simp only [Option.some.injEq, Prod.mk.injEq] at h ⊢
        exact ⟨h.1, by rw [← h.2]⟩
    · rw [if_neg hc] at h ⊢
      simp only [Option.some.injEq, Prod.mk.injEq] at h ⊢
      exact ⟨h.1, by rw [← h.2]; rfl⟩

theorem readExp_append_brace (s t : FString) (e : Int) (r : FString)
    (h : readExp s = some (e, r)) :
    readExp (s ++ '\x7d' :: t) = some (e, r ++ '\x7d' :: t) := by
  unfold readExp at h ⊢
  cases s with
  | nil =>
    simp only [Option.some.injEq, Prod.mk.injEq] at h
    simp only [List.nil_append]
    rw [if_neg (by decide), ← h.1, ← h.2]
    rfl
  | cons c cs =>
    simp only [List.cons_append] at h ⊢
    by_cases hc : c = 'e' ∨ c = 'E'
    · rw [if_pos hc] at h ⊢
      cases cs with
      | nil => simp at h
      | cons g gs =>
        simp only [List.cons_append] at h ⊢
        by_cases hg : g = '-'
        · rw [if_pos hg] at h ⊢
          rw [readDigits_append_brace]
          rcases hd : readDigits gs with ⟨l, r2⟩
          rw [hd] at h
          match l, h with
          | [], h => simp at h
          | d :: l2, h =>
            simp only [Option.some.injEq, Prod.mk.injEq] at h ⊢
            exact ⟨h.1, by rw [← h.2]⟩
        · rw [if_neg hg] at h ⊢
          have happ : (if g = '+' then gs ++ '\x7d' :: t else g :: (gs ++ '\x7d' :: t))
              = (if g = '+' then gs else g :: gs) ++ '\x7d' :: t := by
            by_cases hp : g = '+'
            · rw [if_pos hp, if_pos hp]
            · rw [if_neg hp, if_neg hp]
              rfl
          rw [happ, readDigits_append_brace]
          rcases hd : readDigits (if g = '+' then gs else g :: gs) with ⟨l, r2⟩
          rw [hd] at h
          match l, h with
          | [], h => simp at h
          | d :: l2, h =>
            simp only [Option.some.injEq, Prod.mk.injEq] at h ⊢
            exact ⟨h.1, by rw [← h.2]⟩
    · rw [if_neg hc] at h ⊢
      simp only [Option.some.injEq, Prod.mk.injEq] at h ⊢
      exact ⟨h.1, by rw [← h.2]; rfl⟩

theorem readUnsigned_append_brace (s t : FString) (x : Nat × Int) (r : FString)
    (h : readUnsigned s = some (x, r)) :
    readUnsigned (s ++ '\x7d' :: t) = some (x, r ++ '\x7d' :: t) := by
  unfold readUnsigned at h ⊢
  cases h1 : readInt s with
  | none => simp [h1] at h
  | some a =>
    obtain ⟨ip, r1⟩ := a
    rw [h1] at h
    rw [readInt_append_brace s t ip r1 h1]
    simp only at h ⊢
    cases h2 : readFrac r1 with
    | none => simp [h2] at h
    | some b =>
      obtain ⟨fp, r2⟩ := b
      rw [h2] at h
      rw [readFrac_append_brace r1 t fp r2 h2]
      simp only at h ⊢
      cases h3 : readExp r2 with
      | none => simp [h3] at h
      | some c =>
        obtain ⟨e, r3⟩ := c
        rw [h3] at h
        rw [readExp_append_brace r2 t e r3 h3]
        simp only [Option.some.injEq, Prod.mk.injEq] at h ⊢
        exact ⟨h.1, by rw [← h.2]⟩

theorem readNumber_append_brace (s t : FString) (v : FJsonValue) (r : FString)
    (h : readNumber s = some (v, r)) :
    readNumber (s ++ '\x7d' :: t) = some (v, r ++ '\x7d' :: t) := by
  unfold readNumber at h ⊢
  cases s with
  | nil => simp at h
  | cons c cs =>
    simp only [List.cons_append] at h ⊢
    by_cases hc : c = '-'
    · rw [if_pos hc] at h ⊢
      cases hu : readUnsigned cs with
      | none => simp [hu] at h
      | some a =>
        obtain ⟨x, r2⟩ := a
        rw [hu] at h
        rw [readUnsigned_append_brace cs t x r2 hu]
        simp only [Option.map_some', Option.some.injEq, Prod.mk.injEq] at h ⊢
        exact ⟨h.1, by rw [← h.2]⟩
    · rw [if_neg hc] at h ⊢
      cases hu : readUnsigned (c :: cs) with
      | none => simp [hu] at h
      | some a =>
        obtain ⟨x, r2⟩ := a
        rw [hu] at h
        have := readUnsigned_append_brace (c :: cs) t x r2 hu
        rw [List.cons_append] at this
        rw [this]
        simp only [Option.map_some', Option.some.injEq, Prod.mk.injEq] at h ⊢
        exact ⟨h.1, by rw [← h.2]⟩

theorem expectWord_append (w s r t : FString) (h : expectWord w s = some r) :
    expectWord w (s ++ t) = some (r ++ t) := by
  unfold expectWord at h ⊢
  by_cases hp : w.isPrefixOf s = true
  · rw [if_pos hp] at h
    have hpre : w <+: s := List.isPrefixOf_iff_prefix.mp hp
    have hp2 : w.isPrefixOf (s ++ t) = true :=
      List.isPrefixOf_iff_prefix.mpr (hpre.trans (List.prefix_append s t))
    rw [if_pos hp2]
    obtain ⟨u, rfl⟩ := hpre
    simp only [List.drop_left, Option.some.injEq] at h
    rw [List.append_assoc, List.drop_left, ← h]
  · rw [if_neg hp] at h
    cases h

theorem read_append_brace (n : Nat) :
    (∀ s v r t m, n ≤ m → readValue n s = some (v, r) →
        readValue m (s ++ '\x7d' :: t) = some (v, r ++ '\x7d' :: t))
    ∧ (∀ s fs r t m, n ≤ m → readMembers n s = some (fs, r) →
        readMembers m (s ++ '\x7d' :: t) = some (fs, r ++ '\x7d' :: t))
    ∧ (∀ s vs r t m, n ≤ m → readElements n s = some (vs, r) →
        readElements m (s ++ '\x7d' :: t) = some (vs, r ++ '\x7d' :: t)) := by
  induction n with
  | zero =>
    refine ⟨?_, ?_, ?_⟩ <;> intro s v r t m _ h
    · simp [readValue] at h
    · simp [readMembers] at h
    · simp [readElements] at h
  | succ n ih =>
    obtain ⟨ihV, ihM, ihE⟩ := ih
    refine ⟨?_, ?_, ?_⟩
    · intro s v r t m hm h
      obtain ⟨k, rfl⟩ : ∃ k, m = k + 1 := ⟨m - 1, by omega⟩
      have hk : n ≤ k := by omega
      rw [readValue_succ] at h ⊢
      cases hs : skipWhitespace s with
      | nil => simp [hs] at h
      | cons c cs =>
        rw [hs] at h
        rw [skipWhitespace_append_cons s t c cs hs]
        simp only at h ⊢
        by_cases h1 : c = '\x7b'
        · rw [if_pos h1] at h ⊢
          cases hcs : skipWhitespace cs with
          | nil => simp [hcs] at h
          | cons d ds =>
            rw [hcs] at h
            rw [skipWhitespace_append_cons cs t d ds hcs]
            simp only at h ⊢
            by_cases hd : d = '\x7d'
            · rw [if_pos hd] at h ⊢
              simp only [Option.some.injEq, Prod.mk.injEq] at h ⊢
              exact ⟨h.1, by rw [← h.2]⟩
            · rw [if_neg hd] at h ⊢
              obtain ⟨⟨fs, r2⟩, hm2, heq⟩ := Option.map_eq_some'.mp h
              have := ihM (d :: ds) fs r2 t k hk hm2
              rw [List.cons_append] at this
              rw [this]
              simp only [Option.map_some', Option.some.injEq, Prod.mk.injEq] at heq ⊢
              exact ⟨heq.1, by rw [← heq.2]⟩
        · rw [if_neg h1] at h ⊢
          by_cases h2 : c = '['
          · rw [if_pos h2] at h ⊢
            cases hcs : skipWhitespace cs with
            | nil => simp [hcs] at h
            | cons d ds =>
              rw [hcs] at h
              rw [skipWhitespace_append_cons cs t d ds hcs]
              simp only at h ⊢
              by_cases hd : d = ']'
              · rw [if_pos hd] at h ⊢
                simp only [Option.some.injEq, Prod.mk.injEq] at h ⊢
                exact ⟨h.1, by rw [← h.2]⟩
              · rw [if_neg hd] at h ⊢
                obtain ⟨⟨vs, r2⟩, hm2, heq⟩ := Option.map_eq_some'.mp h
                have := ihE (d :: ds) vs r2 t k hk hm2
                rw [List.cons_append] at this
                rw [this]
                simp only [Option.map_some', Option.some.injEq, Prod.mk.injEq] at heq ⊢
                exact ⟨heq.1, by rw [← heq.2]⟩
          · rw [if_neg h2] at h ⊢
            by_cases h3 : c = '"'
            · rw [if_pos h3] at h ⊢
              obtain ⟨⟨x, r2⟩, hm2, heq⟩ := Option.map_eq_some'.mp h
              rw [readString_append cs x r2 _ hm2]
              simp only [Option.map_some', Option.some.injEq, Prod.mk.injEq] at heq ⊢
              exact ⟨heq.1, by rw [← heq.2]⟩
            · rw [if_neg h3] at h ⊢
              by_cases h4 : c = 't'
              · rw [if_pos h4] at h ⊢
                obtain ⟨r2, hm2, heq⟩ := Option.map_eq_some'.mp h
                rw [expectWord_append _ cs r2 _ hm2]
                simp only [Option.map_some', Option.some.injEq, Prod.mk.injEq] at heq ⊢
                exact ⟨heq.1, by rw [← heq.2]⟩
              · rw [if_neg h4] at h ⊢
                by_cases h5 : c = 'f'
                · rw [if_pos h5] at h ⊢
                  obtain ⟨r2, hm2, heq⟩ := Option.map_eq_some'.mp h
                  rw [expectWord_append _ cs r2 _ hm2]
                  simp only [Option.map_some', Option.some.injEq, Prod.mk.injEq] at heq ⊢
                  exact ⟨heq.1, by rw [← heq.2]⟩
                · rw [if_neg h5] at h ⊢
                  by_cases h6 : c = 'n'
                  · rw [if_pos h6] at h ⊢
                    obtain ⟨r2, hm2, heq⟩ := Option.map_eq_some'.mp h
                    rw [expectWord_append _ cs r2 _ hm2]
                    simp only [Option.map_some', Option.some.injEq, Prod.mk.injEq] at heq ⊢
                    exact ⟨heq.1, by rw [← heq.2]⟩
                  · rw [if_neg h6] at h ⊢
                    have := readNumber_append_brace (c :: cs) t v r h
                    rw [List.cons_append] at this
                    exact this
    · intro s fs r t m hm h
      obtain ⟨k, rfl⟩ : ∃ k, m = k + 1 := ⟨m - 1, by omega⟩
      have hk : n ≤ k := by omega
      rw [readMembers_succ] at h ⊢
      cases hs : skipWhitespace s with
      | nil => simp [hs] at h
      | cons q s1 =>
        rw [hs] at h
        rw [skipWhitespace_append_cons s t q s1 hs]
        simp only at h ⊢
        by_cases hq : q = '"'
        · rw [if_pos hq] at h ⊢
          cases hkey : readString s1 with
          | none => simp [hkey] at h
          | some a =>
            obtain ⟨key, s2⟩ := a
            rw [hkey] at h
            rw [readString_append s1 key s2 _ hkey]
            simp only at h ⊢
            cases hs2 : skipWhitespace s2 with
            | nil => simp [hs2] at h
            | cons colon s3 =>
              rw [hs2] at h
              rw [skipWhitespace_append_cons s2 t colon s3 hs2]
              simp only at h ⊢
              by_cases hc : colon = ':'
              · rw [if_pos hc] at h ⊢
                cases hv : readValue n s3 with
                | none => simp [hv] at h
                | some b =>
                  obtain ⟨v, s4⟩ := b
                  rw [hv] at h
                  rw [ihV s3 v s4 t k hk hv]
                  simp only at h ⊢
                  cases hs4 : skipWhitespace s4 with
                  | nil => simp [hs4] at h
                  | cons sep s5 =>
                    rw [hs4] at h
                    rw [skipWhitespace_append_cons s4 t sep s5 hs4]
                    simp only at h ⊢
                    by_cases hsep : sep = ','
                    · rw [if_pos hsep] at h ⊢
                      obtain ⟨⟨fs2, r2⟩, hm2, heq⟩ := Option.map_eq_some'.mp h
                      rw [ihM s5 fs2 r2 t k hk hm2]
                      simp only [Option.map_some', Option.some.injEq, Prod.mk.injEq] at heq ⊢
                      exact ⟨heq.1, by rw [← heq.2]⟩
                    · rw [if_neg hsep] at h ⊢
                      by_cases hb : sep = '\x7d'
                      · rw [if_pos hb] at h ⊢
                        simp only [Option.some.injEq, Prod.mk.injEq] at h ⊢
                        exact ⟨h.1, by rw [← h.2]⟩
                      · rw [if_neg hb] at h
                        cases h
              · rw [if_neg hc] at h
                cases h
        · rw [if_neg hq] at h
          cases h
    · intro s vs r t m hm h
      obtain ⟨k, rfl⟩ : ∃ k, m = k + 1 := ⟨m - 1, by omega⟩
      have hk : n ≤ k := by omega
      rw [readElements_succ] at h ⊢
      cases hv : readValue n s with
      | none => simp [hv] at h
      | some b =>
        obtain ⟨v, s1⟩ := b
        rw [hv] at h
        rw [ihV s v s1 t k hk hv]
        simp only at h ⊢
        cases hs1 : skipWhitespace s1 with
        | nil => simp [hs1] at h
        | cons sep s2 =>
          rw [hs1] at h
          rw [skipWhitespace_append_cons s1 t sep s2 hs1]
          simp only at h ⊢
          by_cases hsep : sep = ','
          · rw [if_pos hsep] at h ⊢
            obtain ⟨⟨vs2, r2⟩, hm2, heq⟩ := Option.map_eq_some'.mp h
            rw [ihE s2 vs2 r2 t k hk hm2]
            simp only [Option.map_some', Option.some.injEq, Prod.mk.injEq] at heq ⊢
            exact ⟨heq.1, by rw [← heq.2]⟩
          · rw [if_neg hsep] at h ⊢
            by_cases hb : sep = ']'
            · rw [if_pos hb] at h ⊢
              simp only [Option.some.injEq, Prod.mk.injEq] at h ⊢
              exact ⟨h.1, by rw [← h.2]⟩
            · rw [if_neg hb] at h
              cases h

/-! ### Escaping and the cut at U+0000 -/

theorem escapeChar_nul : escapeChar (Char.ofNat 0) = [Char.ofNat 0] := by decide

theorem escapeChar_ne_nul (c : Char) (hc : c ≠ Char.ofNat 0) :
    ∀ x ∈ escapeChar c, x ≠ Char.ofNat 0 := by
  intro x hx
  unfold escapeChar at hx
  split at hx
  · simp only [List.mem_cons, List.mem_singleton, List.not_mem_nil, or_false, or_self] at hx
    rw [hx]; decide
  split at hx
  · simp only [List.mem_cons, List.mem_singleton, List.not_mem_nil, or_false] at hx
    rcases hx with hx | hx <;> (rw [hx]; decide)
  split at hx
  · simp only [List.mem_cons, List.mem_singleton, List.not_mem_nil, or_false] at hx
    rcases hx with hx | hx <;> (rw [hx]; decide)
  split at hx
  · simp only [List.mem_cons, List.mem_singleton, List.not_mem_nil, or_false] at hx
    rcases hx with hx | hx <;> (rw [hx]; decide)
  split at hx
  · simp only [List.mem_cons, List.mem_singleton, List.not_mem_nil, or_false] at hx
    rcases hx with hx | hx <;> (rw [hx]; decide)
  split at hx
  · simp only [List.mem_cons, List.mem_singleton, List.not_mem_nil, or_false] at hx
    rcases hx with hx | hx <;> (rw [hx]; decide)
  · simp only [List.mem_singleton] at hx
    rw [hx]
    exact hc

/-- Cutting the escaped text at its first U+0000 gives the escaped form of the
text cut at its first U+0000. -/
theorem cString_escaped (e : FString) :
    cString (e.flatMap escapeChar) = (cString e).flatMap escapeChar := by
  induction e with
  | nil => rfl
  | cons c e ih =>
    by_cases hc : c = Char.ofNat 0
    · subst hc
      rw [List.flatMap_cons, escapeChar_nul]
      simp [cString]
    · have h1 : cString (c :: e) = c :: cString e := by
        unfold cString
        rw [List.takeWhile_cons_of_pos (by simpa using hc)]
      rw [h1, List.flatMap_cons, List.flatMap_cons, ← ih]
      unfold cString
      rw [List.takeWhile_append_of_pos]
      intro x hx
      simpa using escapeChar_ne_nul c hc x hx

theorem cString_ReplaceCharWithEscapedChar (e : FString) :
    cString (ReplaceCharWithEscapedChar e) = ReplaceCharWithEscapedChar (cString e) := by
  rw [ReplaceCharWithEscapedChar_eq, ReplaceCharWithEscapedChar_eq, cString_escaped]

theorem not_nul_of_JsonSafe (e : FString) (he : ∀ c ∈ e, JsonSafe c) : Char.ofNat 0 ∉ e := by
  intro hm
  have h := (he _ hm).2 (by decide)
  revert h
  decide

/-! ### The tick body as a JSON text -/

theorem escapeChar_safe_cases (c : Char) (hs : JsonSafe c) :
    (escapeChar c = [c] ∧ c ≠ '"' ∧ c ≠ '\\' ∧ ¬ c.toNat < 32)
    ∨ (∃ x, escapeChar c = ['\\', x] ∧ x ≠ 'u' ∧ unescape x = some c) := by
  unfold escapeChar
  by_cases h1 : c = '\\'
  · exact Or.inr ⟨'\\', by simp [h1], by decide, by rw [h1]; decide⟩
  by_cases h2 : c = '\n'
  · exact Or.inr ⟨'n', by simp [h1, h2], by decide, by rw [h2]; decide⟩
  by_cases h3 : c = '\r'
  · exact Or.inr ⟨'r', by simp [h1, h2, h3], by decide, by rw [h3]; decide⟩
  by_cases h4 : c = '\t'
  · exact Or.inr ⟨'t', by simp [h1, h2, h3, h4], by decide, by rw [h4]; decide⟩
  by_cases h5 : c = Char.ofNat 39
  · exact absurd h5 hs.1
  by_cases h6 : c = '"'
  · exact Or.inr ⟨'"', by simp [h1, h2, h3, h4, h5, h6], by decide, by rw [h6]; decide⟩
  · refine Or.inl ⟨by simp [h1, h2, h3, h4, h5, h6], h6, h1, ?_⟩
    intro hlt
    rcases hs.2 hlt with h | h | h
    · exact h2 h
    · exact h3 h
    · exact h4 h

theorem decodeRawAux_escaped (e : FString) (hs : ∀ c ∈ e, JsonSafe c) (n : Nat)
    (hn : (e.flatMap escapeChar).length ≤ n) :
    decodeRawAux n (e.flatMap escapeChar) = some e := by
  induction e generalizing n with
  | nil =>
    cases n <;> rfl
  | cons c e ih =>
    have hc := hs c (List.mem_cons_self _ _)
    have he : ∀ x ∈ e, JsonSafe x := fun x hx => hs x (List.mem_cons_of_mem _ hx)
    rw [List.flatMap_cons] at hn ⊢
    rcases escapeChar_safe_cases c hc with ⟨h, hq, hb, hlt⟩ | ⟨x, h, hu, hx⟩
    · rw [h] at hn ⊢
      simp only [List.singleton_append, List.length_cons] at hn ⊢
      obtain ⟨m, rfl⟩ : ∃ m, n = m + 1 := ⟨n - 1, by omega⟩
      rw [decodeRawAux_plain m c _ hb hq hlt, ih he m (by omega)]
      rfl
    · rw [h] at hn ⊢
      simp only [List.cons_append, List.nil_append, List.length_cons] at hn ⊢
      obtain ⟨m, rfl⟩ : ∃ m, n = m + 1 := ⟨n - 1, by omega⟩
      rw [decodeRawAux_escape m x _ c hu hx, ih he m (by omega)]
      rfl

theorem readString_escaped (e rest : FString) (hs : ∀ c ∈ e, JsonSafe c) :
    readString (ReplaceCharWithEscapedChar e ++ '"' :: rest) = some (e, rest) := by
  rw [ReplaceCharWithEscapedChar_eq]
  unfold readString
  rw [scanLiteral_escaped]
  simp only [decodeRaw]
  rw [decodeRawAux_escaped e hs _ (le_refl _)]
  rfl

theorem tickBody_cons (a p : FString) :
    PrintfTickBody a p
      = '\x7b' :: '"' :: ("event".toList ++ '"' :: ':' :: '"' ::
          (cString a ++ '"' :: ',' :: '"' ::
            ("params".toList ++ '"' :: ':' :: (cString p ++ ['\x7d'])))) := by
  simp [PrintfTickBody]

theorem tickBody_safe (e p : FString) (he : ∀ c ∈ e, JsonSafe c) (hp : Char.ofNat 0 ∉ p) :
    PrintfTickBody (ReplaceCharWithEscapedChar e) p
      = '\x7b' :: '"' :: ("event".toList ++ '"' :: ':' :: '"' ::
          (ReplaceCharWithEscapedChar e ++ '"' :: ',' :: '"' ::
            ("params".toList ++ '"' :: ':' :: (p ++ ['\x7d'])))) := by
  rw [tickBody_cons, cString_ReplaceCharWithEscapedChar,
    cString_of_not_mem e (not_nul_of_JsonSafe e he), cString_of_not_mem p hp]

theorem readString_key (key rest : FString) (hs : ∀ c ∈ key, JsonSafe c)
    (hk : ReplaceCharWithEscapedChar key = key) :
    readString (key ++ '"' :: rest) = some (key, rest) := by
  have h := readString_escaped key rest hs
  rw [hk] at h
  exact h

theorem readValue_string (k : Nat) (cs x r : FString) (h : readString cs = some (x, r)) :
    readValue (k + 1) ('"' :: cs) = some (FJsonValue.string x, r) := by
  rw [readValue_succ, skipWhitespace_of_not _ _ (by decide)]
  simp [h]

theorem readValue_object (k : Nat) (cs : FString) (fs : List (FString × FJsonValue))
    (r : FString) (h : readMembers k ('"' :: cs) = some (fs, r)) :
    readValue (k + 1) ('\x7b' :: '"' :: cs) = some (FJsonValue.object fs, r) := by
  rw [readValue_succ, skipWhitespace_of_not _ _ (by decide)]
  simp only [if_true]
  rw [skipWhitespace_of_not _ _ (by decide)]
  simp [h]

theorem readMembers_more (k : Nat) (s1 key s3 s5 r : FString) (v : FJsonValue)
    (fs : List (FString × FJsonValue))
    (h1 : readString s1 = some (key, ':' :: s3))
    (h2 : readValue k s3 = some (v, ',' :: s5))
    (h3 : readMembers k s5 = some (fs, r)) :
    readMembers (k + 1) ('"' :: s1) = some ((key, v) :: fs, r) := by
  rw [readMembers_succ, skipWhitespace_of_not _ _ (by decide)]
  simp only [if_true, h1]
  rw [skipWhitespace_of_not _ _ (by decide)]
  simp only [if_true, h2]
  rw [skipWhitespace_of_not _ _ (by decide)]
  simp [h3]

theorem readMembers_last (k : Nat) (s1 key s3 s4 s5 : FString) (v : FJsonValue)
    (h1 : readString s1 = some (key, ':' :: s3))
    (h2 : readValue k s3 = some (v, s4))
    (h3 : skipWhitespace s4 = '\x7d' :: s5) :
    readMembers (k + 1) ('"' :: s1) = some ([(key, v)], s5) := by
  rw [readMembers_succ, skipWhitespace_of_not _ _ (by decide)]
  simp only [if_true, h1]
  rw [skipWhitespace_of_not _ _ (by decide)]
  simp only [if_true, h2, h3]
  simp

/-- For an event of JSON-safe characters and params that are a JSON text of
value `v`, the body `CallTick` builds is a JSON text: the object with the key
`event`, whose value is the event, and the key `params`, whose value is `v`. -/
theorem tickBody_parses (e p : FString) (v : FJsonValue) (he : ∀ c ∈ e, JsonSafe c)
    (hp : parseJson p = some v) :
    parseJson (PrintfTickBody (ReplaceCharWithEscapedChar e) p)
      = some (FJsonValue.object
          [("event".toList, FJsonValue.string e), ("params".toList, v)]) := by
  have hbody := tickBody_safe e p he (parseJson_no_nul p v hp)
  unfold parseJson at hp
  cases hv : readValue (p.length + 1) p with
  | none => simp [hv] at hp
  | some a =>
    obtain ⟨v2, r⟩ := a
    rw [hv] at hp
    simp only at hp
    by_cases hr : skipWhitespace r = []
    · rw [if_pos hr] at hp
      have hv2 : v2 = v := Option.some.inj hp
      subst hv2
      obtain ⟨k, hk1, hk2⟩ : ∃ k, (PrintfTickBody (ReplaceCharWithEscapedChar e) p).length + 1
          = k + 3 ∧ p.length + 1 ≤ k := by
        refine ⟨(PrintfTickBody (ReplaceCharWithEscapedChar e) p).length - 2, ?_, ?_⟩
        · simp [hbody]
        · simp [hbody]
          omega
      have hparams : readMembers (k + 1)
          ('"' :: ("params".toList ++ '"' :: ':' :: (p ++ ['\x7d'])))
          = some ([("params".toList, v2)], []) :=
        readMembers_last k _ "params".toList (p ++ ['\x7d']) (r ++ ['\x7d']) [] v2
          (readString_key _ _ (by decide) (by decide))
          ((read_append_brace (p.length + 1)).1 p v2 r [] k hk2 hv)
          (by rw [skipWhitespace_append_brace, hr]; rfl)
      have hevent : readValue (k + 1) ('"' :: (ReplaceCharWithEscapedChar e
            ++ '"' :: ',' :: '"' :: ("params".toList ++ '"' :: ':' :: (p ++ ['\x7d']))))
          = some (FJsonValue.string e,
              ',' :: '"' :: ("params".toList ++ '"' :: ':' :: (p ++ ['\x7d']))) :=
        readValue_string k _ e _ (readString_escaped e _ he)
      have hmembers := readMembers_more (k + 1) _ "event".toList _ _ [] (FJsonValue.string e) _
        (readString_key "event".toList _ (by decide) (by decide)) hevent hparams
      have hobject := readValue_object (k + 2) _ _ _ hmembers
      unfold parseJson
      rw [hk1, hbody, hobject]
      rfl
    · rw [if_neg hr] at hp
      cases hp

/-! ### The component -/

theorem SendPOST_eq (self : USimClientComponent) (Ep Body : FString) :
    SendPOST self Ep Body = (self, [Effect.ProcessRequest (postRequest self Ep Body)]) := by
  simp [SendPOST, postRequest, CreateRequest, SetHeader]

/-- The one request `CallTick` issues, for any event and params: its body holds
the escaped event and the params each up to its first U+0000. -/
theorem CallTick_eq (self : USimClientComponent) (e p : FString) :
    CallTick self e p
      = (self, [Effect.ProcessRequest (postRequest self "/tick".toList
          ("\x7b\"event\":\"".toList ++ cString (ReplaceCharWithEscapedChar e)
            ++ "\",\"params\":".toList ++ cString p ++ "\x7d".toList))]) := by
  simp only [CallTick, SendPOST_eq, PrintfTickBody]

theorem ReplaceCharWithEscapedChar_no_nul (e : FString) (he : Char.ofNat 0 ∉ e) :
    Char.ofNat 0 ∉ ReplaceCharWithEscapedChar e := by
  have h := cString_ReplaceCharWithEscapedChar e
  rw [cString_of_not_mem e he] at h
  unfold cString at h
  intro hm
  have := (List.takeWhile_eq_self_iff.mp h) _ hm
  simp at this

/-- C1, as the claim states it, fails: for the event `tick` and the params made
of `a`, U+0000 and `b`, the one request has the body `{"event":"tick","params":a}`;
the params are not in it unchanged, they end at the U+0000, so the body is not
the concatenation the claim gives. -/
theorem CallTick_body_cut_at_nul :
    (CallTick USimClientComponent.init "tick".toList ['a', Char.ofNat 0, 'b']).2
      = [Effect.ProcessRequest (postRequest USimClientComponent.init "/tick".toList
          "\x7b\"event\":\"tick\",\"params\":a\x7d".toList)]
    ∧ ¬ (∃ r, (CallTick USimClientComponent.init "tick".toList
            ['a', Char.ofNat 0, 'b']).2 = [Effect.ProcessRequest r]
          ∧ r.URL = USimClientComponent.init.BaseURL ++ "/tick".toList
          ∧ r.Content = "\x7b\"event\":\"".toList
              ++ ReplaceCharWithEscapedChar "tick".toList
              ++ "\",\"params\":".toList ++ ['a', Char.ofNat 0, 'b'] ++ "\x7d".toList) := by
  have h0 : (CallTick USimClientComponent.init "tick".toList ['a', Char.ofNat 0, 'b']).2
      = [Effect.ProcessRequest (postRequest USimClientComponent.init "/tick".toList
          "\x7b\"event\":\"tick\",\"params\":a\x7d".toList)] := by decide
  refine ⟨h0, ?_⟩
  rintro ⟨r, h1, _, h3⟩
  rw [h0] at h1
  have hr : r = postRequest USimClientComponent.init "/tick".toList
      "\x7b\"event\":\"tick\",\"params\":a\x7d".toList := by
    injection h1 with h1 _
    injection h1 with h1
    exact h1.symm
  rw [hr] at h3
  revert h3
  decide

/-- C1, amended: for every event `e` and params `p` that hold no U+0000,
`CallTick` issues exactly one request, to `BaseURL` followed by `/tick`, whose
body is the text `{"event":"`, then the escaped event, then `","params":`, then
the params text unchanged, then `}`; for the event `player_chat` and the params
`{"text":"hi"}` the body is `{"event":"player_chat","params":{"text":"hi"}}`. -/
theorem CallTick_one_request_body (self : USimClientComponent) (e p : FString)
    (he : Char.ofNat 0 ∉ e) (hp : Char.ofNat 0 ∉ p) :
    (∃ r, (CallTick self e p).2 = [Effect.ProcessRequest r]
      ∧ r.URL = self.BaseURL ++ "/tick".toList
      ∧ r.Content = "\x7b\"event\":\"".toList ++ ReplaceCharWithEscapedChar e
          ++ "\",\"params\":".toList ++ p ++ "\x7d".toList)
    ∧ (∃ r, (CallTick self "player_chat".toList "\x7b\"text\":\"hi\"\x7d".toList).2
          = [Effect.ProcessRequest r]
      ∧ r.URL = self.BaseURL ++ "/tick".toList
      ∧ r.Content
          = "\x7b\"event\":\"player_chat\",\"params\":\x7b\"text\":\"hi\"\x7d\x7d".toList) := by
  refine ⟨⟨_, by rw [CallTick_eq], rfl, ?_⟩, ⟨_, by rw [CallTick_eq], rfl, ?_⟩⟩
  · show "\x7b\"event\":\"".toList ++ cString (ReplaceCharWithEscapedChar e)
        ++ "\",\"params\":".toList ++ cString p ++ "\x7d".toList = _
    rw [cString_of_not_mem _ (ReplaceCharWithEscapedChar_no_nul e he), cString_of_not_mem p hp]
  · show "\x7b\"event\":\"".toList ++ cString (ReplaceCharWithEscapedChar "player_chat".toList)
        ++ "\",\"params\":".toList ++ cString "\x7b\"text\":\"hi\"\x7d".toList
        ++ "\x7d".toList = _
    decide

/-- The event `player_chat` and the params `{"text":"hi"}` hold no U+0000, and
a fresh component sends them to `http://127.0.0.1:8000/tick` in the body
`{"event":"player_chat","params":{"text":"hi"}}`. -/
theorem CallTick_one_request_body_witness :
    ∃ r, (CallTick USimClientComponent.init "player_chat".toList
          "\x7b\"text\":\"hi\"\x7d".toList).2 = [Effect.ProcessRequest r]
      ∧ r.URL = "http://127.0.0.1:8000/tick".toList
      ∧ r.Content
          = "\x7b\"event\":\"player_chat\",\"params\":\x7b\"text\":\"hi\"\x7d\x7d".toList :=
  (CallTick_one_request_body USimClientComponent.init "player_chat".toList
    "\x7b\"text\":\"hi\"\x7d".toList (by decide) (by decide)).1

/-- For an event of JSON-safe characters and params that are a JSON text of
value `v`, the one request `CallTick` issues has a body that is a JSON text: the
object with exactly the keys `event`, whose value is the event, and `params`,
whose value is `v`. -/
theorem CallTick_body_parses (self : USimClientComponent) (e p : FString) (v : FJsonValue)
    (he : ∀ c ∈ e, JsonSafe c) (hp : parseJson p = some v) :
    ∃ r, (CallTick self e p).2 = [Effect.ProcessRequest r]
      ∧ parseJson r.Content = some (FJsonValue.object
          [("event".toList, FJsonValue.string e), ("params".toList, v)]) :=
  ⟨postRequest self "/tick".toList (PrintfTickBody (ReplaceCharWithEscapedChar e) p),
    by simp only [CallTick, SendPOST_eq], tickBody_parses e p v he hp⟩

/-- C2 holds for an event of JSON-safe characters and fails for others.  When
every character of the event is JSON-safe and the params are a JSON text of
value `v`, the body of the one request is a JSON text, the object with exactly
the keys `event`, valued the event, and `params`, valued `v`; so it is for the
claim's example, the event `he said "hi"` with params `{}`.  At the event `it's`
with params `{}` the body is `{"event":"it\'s","params":{}}`, in which the
apostrophe has become the escape `\'`, which JSON does not have: no fuel reads
the body as a JSON text.  The same happens at the event that is the one
character U+000C, which the body carries raw inside the literal. -/
theorem CallTick_body_json_for_safe_events_only :
    (∀ (self : USimClientComponent) (e p : FString) (v : FJsonValue),
        (∀ c ∈ e, JsonSafe c) → parseJson p = some v →
        ∃ r, (CallTick self e p).2 = [Effect.ProcessRequest r]
          ∧ parseJson r.Content = some (FJsonValue.object
              [("event".toList, FJsonValue.string e), ("params".toList, v)]))
    ∧ ((CallTick USimClientComponent.init "he said \"hi\"".toList "\x7b\x7d".toList).2
        = [Effect.ProcessRequest (postRequest USimClientComponent.init "/tick".toList
            "\x7b\"event\":\"he said \\\"hi\\\"\",\"params\":\x7b\x7d\x7d".toList)]
      ∧ parseJson "\x7b\"event\":\"he said \\\"hi\\\"\",\"params\":\x7b\x7d\x7d".toList
        = some (FJsonValue.object
            [("event".toList, FJsonValue.string "he said \"hi\"".toList),
              ("params".toList, FJsonValue.object [])]))
    ∧ ((CallTick USimClientComponent.init
          ['i', 't', Char.ofNat 39, 's'] "\x7b\x7d".toList).2
        = [Effect.ProcessRequest (postRequest USimClientComponent.init "/tick".toList
            ("\x7b\"event\":\"it\\".toList ++ [Char.ofNat 39]
              ++ "s\",\"params\":\x7b\x7d\x7d".toList))]
      ∧ (∀ fuel, readValue fuel ("\x7b\"event\":\"it\\".toList ++ [Char.ofNat 39]
            ++ "s\",\"params\":\x7b\x7d\x7d".toList) = none)
      ∧ parseJson ("\x7b\"event\":\"it\\".toList ++ [Char.ofNat 39]
            ++ "s\",\"params\":\x7b\x7d\x7d".toList) = none)
    ∧ ((CallTick USimClientComponent.init [Char.ofNat 12] "\x7b\x7d".toList).2
        = [Effect.ProcessRequest (postRequest USimClientComponent.init "/tick".toList
            ("\x7b\"event\":\"".toList ++ [Char.ofNat 12]
              ++ "\",\"params\":\x7b\x7d\x7d".toList))]
      ∧ (∀ fuel, readValue fuel ("\x7b\"event\":\"".toList ++ [Char.ofNat 12]
            ++ "\",\"params\":\x7b\x7d\x7d".toList) = none)
      ∧ parseJson ("\x7b\"event\":\"".toList ++ [Char.ofNat 12]
            ++ "\",\"params\":\x7b\x7d\x7d".toList) = none) := by
  refine ⟨fun self e p v he hp => CallTick_body_parses self e p v he hp,
    ⟨by decide, rfl⟩, ⟨by decide, ?_, rfl⟩, ⟨by decide, ?_, rfl⟩⟩
  · intro fuel
    cases fuel with
    | zero => rfl
    | succ n =>
      cases n with
      | zero => rfl
      | succ m =>
        cases m with
        | zero => rfl
        | succ k => rfl
  · intro fuel
    cases fuel with
    | zero => rfl
    | succ n =>
      cases n with
      | zero => rfl
      | succ m =>
        cases m with
        | zero => rfl
        | succ k => rfl

theorem HandleResp_success_effects (self : USimClientComponent) (Req : HttpRequest)
    (resp : HttpResponse) :
    (HandleResp self Req (some resp) true).2
      = self.OnSimStateUpdated.map (fun s => Effect.Notify s resp.ContentAsString)
        ++ [Effect.Deserialize resp.ContentAsString] := rfl

theorem count_notify_map (subs : List Subscriber) (b : FString) (s : Subscriber) :
    (subs.map (fun x => Effect.Notify x b)).count (Effect.Notify s b) = subs.count s := by
  induction subs with
  | nil => rfl
  | cons x xs ih =>
    by_cases h : x = s
    · subst h
      simp [ih]
    · have h2 : Effect.Notify x b ≠ Effect.Notify s b := by
        intro hc
        injection hc with h1 _
        exact h h1
      simp [List.count_cons, ih, h, h2]

/-- C3: when `HandleResp` handles a completion with the success flag true and a
present response of body text `b`, the effects are one notification carrying
exactly `b` per bound subscriber, followed by the parse of `b`: each subscriber
is notified as often as it is bound, so exactly once when no subscriber is bound
twice; nothing but `b` is delivered, and only to bound subscribers; and this is
so for every `b`, whether or not it parses as a JSON object. -/
theorem HandleResp_success_broadcast (self : USimClientComponent) (Req : HttpRequest)
    (resp : HttpResponse) :
    (HandleResp self Req (some resp) true).2
        = self.OnSimStateUpdated.map (fun s => Effect.Notify s resp.ContentAsString)
          ++ [Effect.Deserialize resp.ContentAsString]
    ∧ (∀ s, (HandleResp self Req (some resp) true).2.count
          (Effect.Notify s resp.ContentAsString) = self.OnSimStateUpdated.count s)
    ∧ (self.OnSimStateUpdated.Nodup → ∀ s ∈ self.OnSimStateUpdated,
          (HandleResp self Req (some resp) true).2.count
            (Effect.Notify s resp.ContentAsString) = 1)
    ∧ (∀ s t, Effect.Notify s t ∈ (HandleResp self Req (some resp) true).2 →
          t = resp.ContentAsString ∧ s ∈ self.OnSimStateUpdated) := by
  have hcount : ∀ s, (HandleResp self Req (some resp) true).2.count
      (Effect.Notify s resp.ContentAsString) = self.OnSimStateUpdated.count s := by
    intro s
    rw [HandleResp_success_effects, List.count_append, count_notify_map]
    simp
  refine ⟨rfl, hcount, ?_, ?_⟩
  · intro hnd s hs
    rw [hcount s]
    exact List.count_eq_one_of_mem hnd hs
  · intro s t h
    rw [HandleResp_success_effects] at h
    simp only [List.mem_append, List.mem_map, List.mem_singleton] at h
    rcases h with ⟨x, hx, heq⟩ | h
    · injection heq with h1 h2
      subst h1
      exact ⟨h2.symm, hx⟩
    · cases h

theorem HandleResp_success_state (self : USimClientComponent) (Req : HttpRequest)
    (resp : HttpResponse) :
    (HandleResp self Req (some resp) true).1.SimState
      = if (Deserialize resp.ContentAsString).1 && (Deserialize resp.ContentAsString).2.isSome
        then (Deserialize resp.ContentAsString).2 else self.SimState := by
  simp only [HandleResp]
  split <;> rfl

theorem Deserialize_object (b : FString) (o : FJsonObject)
    (h : parseJson b = some (FJsonValue.object o)) : Deserialize b = (true, some o) := by
  simp [Deserialize, h]

theorem Deserialize_not_object (b : FString)
    (h : ∀ o, parseJson b ≠ some (FJsonValue.object o)) : Deserialize b = (false, none) := by
  unfold Deserialize
  split
  · next fields hp => exact absurd hp (h fields)
  · rfl

/-- C5: after `HandleResp` has handled a successful completion with a present
response, `SimState` is the parsed object when the body parses as a JSON object,
with whatever fuel it is read (for the body `{"hp":10}` it is the object whose
key `hp` is 10), and it is what it was before when the body parses as a JSON
value that is no object or does not parse at all (as for `not json`, which no
fuel reads). -/
theorem HandleResp_state_after_parse (self : USimClientComponent) (Req : HttpRequest)
    (resp : HttpResponse) :
    (∀ o, parseJson resp.ContentAsString = some (FJsonValue.object o) →
        (HandleResp self Req (some resp) true).1.SimState = some o)
    ∧ (∀ n o r, readValue n resp.ContentAsString = some (FJsonValue.object o, r) →
        skipWhitespace r = [] →
        (HandleResp self Req (some resp) true).1.SimState = some o)
    ∧ (∀ v, parseJson resp.ContentAsString = some v → (∀ o, v ≠ FJsonValue.object o) →
        (HandleResp self Req (some resp) true).1.SimState = self.SimState)
    ∧ (parseJson resp.ContentAsString = none →
        (HandleResp self Req (some resp) true).1.SimState = self.SimState)
    ∧ ((HandleResp self Req (some ⟨"\x7b\"hp\":10\x7d".toList⟩) true).1.SimState
          = some [("hp".toList, FJsonValue.number 10 0)]
        ∧ ((HandleResp self Req (some ⟨"\x7b\"hp\":10\x7d".toList⟩) true).1.SimState.bind
            (fun o => TryGetField o "hp".toList)) = some (FJsonValue.number 10 0))
    ∧ ((∀ fuel, readValue fuel "not json".toList = none)
        ∧ (HandleResp self Req (some ⟨"not json".toList⟩) true).1.SimState = self.SimState) := by
  have hp : parseJson "\x7b\"hp\":10\x7d".toList
      = some (FJsonValue.object [("hp".toList, FJsonValue.number 10 0)]) := rfl
  have hs : (HandleResp self Req (some ⟨"\x7b\"hp\":10\x7d".toList⟩) true).1.SimState
      = some [("hp".toList, FJsonValue.number 10 0)] := by
    rw [HandleResp_success_state, Deserialize_object _ _ hp]
    rfl
  have hobj : ∀ o, parseJson resp.ContentAsString = some (FJsonValue.object o) →
      (HandleResp self Req (some resp) true).1.SimState = some o := by
    intro o h
    rw [HandleResp_success_state, Deserialize_object _ _ h]
    rfl
  refine ⟨hobj, ?_, ?_, ?_, ⟨hs, ?_⟩, ?_, ?_⟩
  · intro n o r h hr
    exact hobj o (parseJson_of_readValue n _ _ r h hr)
  · intro v h hv
    rw [HandleResp_success_state, Deserialize_not_object]
    · rfl
    · intro o ho
      rw [h] at ho
      exact hv o (Option.some.inj ho)
  · intro h
    rw [HandleResp_success_state, Deserialize_not_object]
    · rfl
    · intro o ho
      rw [h] at ho
      cases ho
  · rw [hs]
    rfl
  · intro fuel
    cases fuel <;> rfl
  · have hn : parseJson "not json".toList = none := rfl
    rw [HandleResp_success_state, Deserialize_not_object]
    · rfl
    · intro o ho
      rw [hn] at ho
      cases ho

/-- C6: `BeginPlay` runs the host's begin handling and then issues exactly one
request, a POST to `BaseURL` followed by `/load` with body `{}` (to
`http://127.0.0.1:8000/load` for a fresh component); `EndPlay` issues exactly
one request, a POST to `BaseURL` followed by `/save` with body `{}`, and runs
the host's end handling after it; neither issues another request. -/
theorem BeginPlay_EndPlay_requests (self : USimClientComponent) :
    (BeginPlay self).2
        = [Effect.SuperBeginPlay,
            Effect.ProcessRequest (postRequest self "/load".toList "\x7b\x7d".toList)]
    ∧ requestsOf (BeginPlay self).2 = [postRequest self "/load".toList "\x7b\x7d".toList]
    ∧ (EndPlay self).2
        = [Effect.ProcessRequest (postRequest self "/save".toList "\x7b\x7d".toList),
            Effect.SuperEndPlay]
    ∧ requestsOf (EndPlay self).2 = [postRequest self "/save".toList "\x7b\x7d".toList]
    ∧ (postRequest self "/load".toList "\x7b\x7d".toList).Verb = "POST".toList
    ∧ (postRequest self "/save".toList "\x7b\x7d".toList).Verb = "POST".toList
    ∧ requestsOf (BeginPlay USimClientComponent.init).2
        = [{ URL := "http://127.0.0.1:8000/load".toList
             Verb := "POST".toList
             Headers := [("Content-Type".toList, "application/json".toList)]
             Content := "\x7b\x7d".toList
             OnProcessRequestComplete := some Completion.HandleResp }] := by
  refine ⟨?_, ?_, ?_, ?_, rfl, rfl, ?_⟩
  · simp [BeginPlay, CallLoad, SendPOST_eq]
  · simp [BeginPlay, CallLoad, SendPOST_eq, requestsOf]
  · simp [EndPlay, CallSave, SendPOST_eq]
  · simp [EndPlay, CallSave, SendPOST_eq, requestsOf]
  · decide

/-- C7: the one request `SendPOST` hands over has verb POST, the URL `BaseURL`
followed by the endpoint with nothing between, the one header `Content-Type`
with value `application/json`, the body it was given, and `HandleResp` bound as
its completion; `CallLoad`, `CallSave` and `CallTick` each issue exactly that
request, for `/load` with `{}`, `/save` with `{}` and `/tick` with the tick body. -/
theorem requests_are_json_posts (self : USimClientComponent) :
    (∀ Ep Body, (SendPOST self Ep Body).2
        = [Effect.ProcessRequest
            { URL := self.BaseURL ++ Ep
              Verb := "POST".toList
              Headers := [("Content-Type".toList, "application/json".toList)]
              Content := Body
              OnProcessRequestComplete := some Completion.HandleResp }])
    ∧ (CallLoad self).2
        = [Effect.ProcessRequest
            { URL := self.BaseURL ++ "/load".toList
              Verb := "POST".toList
              Headers := [("Content-Type".toList, "application/json".toList)]
              Content := "\x7b\x7d".toList
              OnProcessRequestComplete := some Completion.HandleResp }]
    ∧ (CallSave self).2
        = [Effect.ProcessRequest
            { URL := self.BaseURL ++ "/save".toList
              Verb := "POST".toList
              Headers := [("Content-Type".toList, "application/json".toList)]
              Content := "\x7b\x7d".toList
              OnProcessRequestComplete := some Completion.HandleResp }]
    ∧ (∀ e p, (CallTick self e p).2
        = [Effect.ProcessRequest
            { URL := self.BaseURL ++ "/tick".toList
              Verb := "POST".toList
              Headers := [("Content-Type".toList, "application/json".toList)]
              Content := PrintfTickBody (ReplaceCharWithEscapedChar e) p
              OnProcessRequestComplete := some Completion.HandleResp }]) := by
  refine ⟨?_, ?_, ?_, ?_⟩
  · intro Ep Body
    rw [SendPOST_eq]
    rfl
  · simp only [CallLoad, SendPOST_eq]
    rfl
  · simp only [CallSave, SendPOST_eq]
    rfl
  · intro e p
    simp only [CallTick, SendPOST_eq]
    rfl

theorem step_BaseURL (self : USimClientComponent) (op : Op) :
    (Op.step self op).1.BaseURL = self.BaseURL
    ∨ op = Op.SetBaseURL (Op.step self op).1.BaseURL := by
  cases op with
  | SetBaseURL url => exact Or.inr rfl
  | CallLoad => exact Or.inl rfl
  | CallSave => exact Or.inl rfl
  | CallTick e p => exact Or.inl rfl

theorem baseURLsAtDispatch_nonempty (self : USimClientComponent) (ops : List Op)
    (h0 : self.BaseURL ≠ [])
    (hw : ∀ url, Op.SetBaseURL url ∈ ops → url ≠ []) :
    ∀ u ∈ baseURLsAtDispatch self ops, u ≠ [] := by
  induction ops generalizing self with
  | nil =>
    intro u hu
    cases hu
  | cons op ops ih =>
    intro u hu
    simp only [baseURLsAtDispatch, List.mem_append, List.mem_map] at hu
    rcases hu with ⟨_, _, hu⟩ | hu
    · rw [← hu]
      exact h0
    · refine ih (Op.step self op).1 ?_ (fun url hm => hw url (List.mem_cons_of_mem _ hm)) u hu
      rcases step_BaseURL self op with h | h
      · rw [h]
        exact h0
      · exact hw _ (by rw [← h]; exact List.mem_cons_self _ _)

/-- C8, as the claim states it, fails: from the default base URL, the scripting
layer writes the empty text to `BaseURL` and calls load; the request is
dispatched, to the URL `/load`, while `BaseURL` is empty. -/
theorem baseURL_empty_at_dispatch :
    baseURLsAtDispatch USimClientComponent.init [Op.SetBaseURL [], Op.CallLoad] = [[]]
    ∧ requestsOf (Op.step (runOps USimClientComponent.init [Op.SetBaseURL []]) Op.CallLoad).2
        = [{ URL := "/load".toList
             Verb := "POST".toList
             Headers := [("Content-Type".toList, "application/json".toList)]
             Content := "\x7b\x7d".toList
             OnProcessRequestComplete := some Completion.HandleResp }]
    ∧ ¬ (∀ u ∈ baseURLsAtDispatch USimClientComponent.init [Op.SetBaseURL [], Op.CallLoad],
          u ≠ []) := by
  refine ⟨by decide, by decide, ?_⟩
  intro h
  exact h [] (by decide) rfl

/-- C8, amended: starting from the default base URL, after any sequence of calls
to load, save and tick and of scripting-layer writes to `BaseURL` that each
write a non-empty text, the base URL is non-empty at every dispatch of a request. -/
theorem baseURL_nonempty_at_dispatch (ops : List Op)
    (hw : ∀ url, Op.SetBaseURL url ∈ ops → url ≠ []) :
    ∀ u ∈ baseURLsAtDispatch USimClientComponent.init ops, u ≠ [] :=
  baseURLsAtDispatch_nonempty _ ops (by decide) hw

/-- A write of `http://sim:9000` between a tick and a load: the two requests are
dispatched with the base URLs `http://127.0.0.1:8000` and `http://sim:9000`,
and the one the load is dispatched with is non-empty. -/
theorem baseURL_nonempty_at_dispatch_witness :
    baseURLsAtDispatch USimClientComponent.init
        [Op.CallTick "player_chat".toList "\x7b\x7d".toList,
          Op.SetBaseURL "http://sim:9000".toList, Op.CallLoad]
      = ["http://127.0.0.1:8000".toList, "http://sim:9000".toList]
    ∧ "http://sim:9000".toList ≠ [] :=
  ⟨by decide,
    baseURL_nonempty_at_dispatch
      [Op.CallTick "player_chat".toList "\x7b\x7d".toList,
        Op.SetBaseURL "http://sim:9000".toList, Op.CallLoad]
      (by
        intro url h
        simp only [List.mem_cons, List.mem_singleton, Op.SetBaseURL.injEq, reduceCtorEq,
          false_or, or_false, List.not_mem_nil] at h
        rw [h]
        decide)
      "http://sim:9000".toList (by decide)⟩

/-- C9: in the escaped event every double quote is preceded by an odd number of
consecutive backslashes, and the escaped event does not end in an odd run of
backslashes; the same holds of the part of it that `CallTick` places in the
body, the escaped event up to its first U+0000.  So in the body `CallTick`
sends, the string literal that starts after `{"event":"` has the placed text as
its raw content and is closed by the quote `CallTick` writes, with `,"params":`,
the params as placed and `}` after it. -/
theorem escaped_event_closes_literal (self : USimClientComponent) (e p : FString) :
    (∀ pre post, ReplaceCharWithEscapedChar e = pre ++ '"' :: post →
        trailingBackslashes pre % 2 = 1)
    ∧ trailingBackslashes (ReplaceCharWithEscapedChar e) % 2 = 0
    ∧ (∀ pre post, cString (ReplaceCharWithEscapedChar e) = pre ++ '"' :: post →
        trailingBackslashes pre % 2 = 1)
    ∧ trailingBackslashes (cString (ReplaceCharWithEscapedChar e)) % 2 = 0
    ∧ (∃ r, (CallTick self e p).2 = [Effect.ProcessRequest r]
        ∧ r.Content = "\x7b\"event\":\"".toList
            ++ (cString (ReplaceCharWithEscapedChar e)
              ++ '"' :: (",\"params\":".toList ++ cString p ++ "\x7d".toList))
        ∧ scanLiteral (cString (ReplaceCharWithEscapedChar e)
              ++ '"' :: (",\"params\":".toList ++ cString p ++ "\x7d".toList))
            = some (cString (ReplaceCharWithEscapedChar e),
                ",\"params\":".toList ++ cString p ++ "\x7d".toList)) := by
  have odd : ∀ (l pre post : FString), l.flatMap escapeChar = pre ++ '"' :: post →
      trailingBackslashes pre % 2 = 1 := by
    intro l pre post h
    obtain ⟨l2, hl⟩ := quote_in_escaped l pre post h
    have hev := trailingBackslashes_escaped_even l2
    rw [hl, trailingBackslashes_snoc, if_pos rfl]
    omega
  have hcut : cString (ReplaceCharWithEscapedChar e) = (cString e).flatMap escapeChar := by
    rw [ReplaceCharWithEscapedChar_eq, cString_escaped]
  refine ⟨?_, ?_, ?_, ?_, ⟨_, by rw [CallTick_eq], ?_, ?_⟩⟩
  · intro pre post h
    rw [ReplaceCharWithEscapedChar_eq] at h
    exact odd e pre post h
  · rw [ReplaceCharWithEscapedChar_eq]
    exact trailingBackslashes_escaped_even e
  · intro pre post h
    rw [hcut] at h
    exact odd (cString e) pre post h
  · rw [hcut]
    exact trailingBackslashes_escaped_even (cString e)
  · simp [postRequest]
  · rw [hcut]
    exact scanLiteral_escaped (cString e) _

/-- C10, as the claim states it, fails: a component whose `SimState` is the
object with `hp` equal to 10 handles a successful reply of body `{}`, which
parses to the empty object, and `SimState` is no longer what it was: it is the
empty object. -/
theorem HandleResp_empty_object_not_kept :
    parseJson "\x7b\x7d".toList = some (FJsonValue.object [])
    ∧ (HandleResp
          { USimClientComponent.init with
            SimState := some [("hp".toList, FJsonValue.number 10 0)] }
          CreateRequest (some ⟨"\x7b\x7d".toList⟩) true).1.SimState = some []
    ∧ (HandleResp
          { USimClientComponent.init with
            SimState := some [("hp".toList, FJsonValue.number 10 0)] }
          CreateRequest (some ⟨"\x7b\x7d".toList⟩) true).1.SimState
        ≠ some [("hp".toList, FJsonValue.number 10 0)] := by
  refine ⟨rfl, rfl, ?_⟩
  intro h
  have h2 : (some [] : Option FJsonObject) = some [("hp".toList, FJsonValue.number 10 0)] := h
  cases h2

/-- C10, amended: `HandleResp` replaces `SimState` whenever the body of a
successful reply parses to an object, the empty one included: when the body
parses to the empty JSON object, `SimState` after the call is the empty object,
whatever it was before. -/
theorem HandleResp_empty_object_replaces (self : USimClientComponent) (Req : HttpRequest)
    (resp : HttpResponse) (h : parseJson resp.ContentAsString = some (FJsonValue.object [])) :
    (HandleResp self Req (some resp) true).1.SimState = some [] := by
  rw [HandleResp_success_state, Deserialize_object _ _ h]
  rfl

/-- The body `{}` parses to the empty object, and a component that held the
object with `hp` equal to 10 holds the empty object afterwards. -/
theorem HandleResp_empty_object_replaces_witness :
    parseJson "\x7b\x7d".toList = some (FJsonValue.object [])
    ∧ (HandleResp
          { USimClientComponent.init with
            SimState := some [("hp".toList, FJsonValue.number 10 0)] }
          CreateRequest (some ⟨"\x7b\x7d".toList⟩) true).1.SimState = some [] :=
  ⟨rfl, HandleResp_empty_object_replaces _ CreateRequest ⟨"\x7b\x7d".toList⟩ rfl⟩

end SimClient
